import Mathlib

/-!
Verification development for `objstore.py`, a deduplicating object store.

The store keeps three pieces of on-disk state under one root directory:
* `data/<digest>`   : one content file per digest, laid out as an 8-byte
  signed reference-count header followed by the raw payload bytes;
* `links/<oid>`     : one small link file per live handle, containing the
  digest the handle points at;
* `state.json`      : the persisted allocator state (`object_id` counter and
  the `free_objectids` pool).

We embed that state shallowly: a content file becomes a `(Digest, Int × Bytes)`
entry (header refcount plus payload), the link directory becomes an
association list `Nat → Digest`, and the allocator fields are carried
verbatim.  The digest function (`hashlib.sha1(...).hexdigest()` in the
source) is treated as an opaque parameter `hash : Bytes → Digest`, exactly as
the specification treats it ("a black box `digest(bytes) -> FixedLengthId`");
theorems that need collision-freeness take `Function.Injective hash` as a
hypothesis and witnesses instantiate `hash` with an injective function.

Fallible filesystem operations (opening a file that may not exist) are
modelled with `Option`: `none` is the path on which the Python code would
raise `IOError`.
-/

abbrev Bytes := List Nat

abbrev Digest := List Nat

/-! ### Association lists

The two on-disk directories (`links/` and `data/`) are directories of small
files keyed by name; we model each as an association list.  Writing a file
creates-or-overwrites (`set`), unlinking removes (`erase`), `os.path.exists`
plus reading is `find`. -/

namespace Assoc

variable {α β : Type} [DecidableEq α]

def find : List (α × β) → α → Option β
  | [], _ => none
  | e :: t, k => if e.1 = k then some e.2 else find t k

def erase : List (α × β) → α → List (α × β)
  | [], _ => []
  | e :: t, k => if e.1 = k then erase t k else e :: erase t k

/-- Create-or-overwrite the entry for key `k`. -/
def set (t : List (α × β)) (k : α) (v : β) : List (α × β) :=
  (k, v) :: erase t k

def keys (t : List (α × β)) : List α := t.map Prod.fst

/-- Number of entries whose value is `v` (used to count the link files that
name a given digest). -/
def countVal [DecidableEq β] : List (α × β) → β → Nat
  | [], _ => 0
  | e :: t, v => (if e.2 = v then 1 else 0) + countVal t v

end Assoc

/-! ### The store state

The Python class `ObjectStore` holds the allocator fields (`self.objectid`,
`self.free_objectids`) in memory and the link/data directories on disk; we
bundle the whole store (object plus its directory tree) into one record. -/

structure ObjectStore where
  objectid : Nat
  free_objectids : List Nat
  links : List (Nat × Digest)
  datafiles : List (Digest × (Int × Bytes))
deriving DecidableEq, Repr

/-- A freshly created store on an empty directory (no `state.json` yet, so
`_load_states` initialises `object_id = 0`, `free_objectids = []`). -/
def initState : ObjectStore :=
  { objectid := 0, free_objectids := [], links := [], datafiles := [] }

/-- `update_rc(datafile, offset)`: read the 8-byte header, add `offset`,
write the header back only when the new count is positive, and return the
new count.  `none` models the `IOError` raised when the data file is
missing. -/
def update_rc (dfs : List (Digest × (Int × Bytes))) (d : Digest) (offset : Int) :
    Option (List (Digest × (Int × Bytes)) × Int) :=
  match Assoc.find dfs d with
  | none => none
  | some (rc, bytes) =>
    let rc2 := rc + offset
    if 0 < rc2 then some (Assoc.set dfs d (rc2, bytes), rc2) else some (dfs, rc2)

/-- `add_link(hashcode, dst)`: write (create-or-overwrite) the link file for
handle `oid` with the digest as its content. -/
def add_link (links : List (Nat × Digest)) (oid : Nat) (hashcode : Digest) :
    List (Nat × Digest) :=
  Assoc.set links oid hashcode

/-- `read_link(src)` guarded by the `os.path.exists(objpath)` check: `none`
when no link file exists for the handle. -/
def read_link (links : List (Nat × Digest)) (oid : Nat) : Option Digest :=
  Assoc.find links oid

/-- Handle allocation, inlined at the top of `ObjectStore.put` in the
source: pop the last element of `free_objectids` (Python `list.pop()`) when
the pool is non-empty, otherwise increment the monotonic counter. -/
def allocate (s : ObjectStore) : Nat × ObjectStore :=
  match s.free_objectids.getLast? with
  | some oid => (oid, { s with free_objectids := s.free_objectids.dropLast })
  | none => (s.objectid + 1, { s with objectid := s.objectid + 1 })

/-- `ObjectStore.put(data)`.  Computes the digest, allocates a handle, and
if no content file exists for the digest writes a temporary file (zero
header, since `f.seek(HEADER_SIZE)` leaves a hole of zero bytes, followed by
the payload) and installs it after re-checking existence; finally writes the
link file and increments the refcount.  In this sequential embedding the
re-check after the lock is re-acquired reads the unchanged state. -/
def ObjectStore.put (hash : Bytes → Digest) (s : ObjectStore) (data : Bytes) :
    Option (ObjectStore × Nat) :=
  let hashcode := hash data
  let a := allocate s
  let oid := a.1
  let s1 := a.2
  let dfs :=
    match Assoc.find s1.datafiles hashcode with
    | some _ => s1.datafiles
    | none =>
      -- lock released; tmp file written; lock re-acquired; existence re-checked
      match Assoc.find s1.datafiles hashcode with
      | some _ => s1.datafiles
      | none => Assoc.set s1.datafiles hashcode (0, data)
  let links := add_link s1.links oid hashcode
  match update_rc dfs hashcode 1 with
  | none => none
  | some (dfs2, _) => some ({ s1 with links := links, datafiles := dfs2 }, oid)

/-- `ObjectStore.get(oid)`.  The returned pair threads the (unchanged) store
state; the second component is `some (some data)` for a successful read,
`some none` for the explicit `return None` on a dead handle, and `none` for
the `IOError` path where the link exists but the data file does not. -/
def ObjectStore.get (s : ObjectStore) (oid : Nat) :
    ObjectStore × Option (Option Bytes) :=
  match read_link s.links oid with
  | none => (s, some none)
  | some hashcode =>
    match Assoc.find s.datafiles hashcode with
    | none => (s, none)
    | some (_, data) => (s, some (some data))

/-- `ObjectStore.delete(oid)`: silently return when no link file exists;
otherwise decrement the refcount (removing the data file when the count hits
zero), unlink the link file, and prepend the handle to the free pool
(`free_objectids.insert(0, oid)`). -/
def ObjectStore.delete (s : ObjectStore) (oid : Nat) : Option ObjectStore :=
  match read_link s.links oid with
  | none => some s
  | some hashcode =>
    match update_rc s.datafiles hashcode (-1) with
    | none => none
    | some (dfs, rc) =>
      some { s with
        datafiles := if rc = 0 then Assoc.erase dfs hashcode else dfs,
        links := Assoc.erase s.links oid,
        free_objectids := oid :: s.free_objectids }

/-! ### Persisted allocator state (`state.json`) -/

/-- The dictionary written by `_store_states` / read by `_load_states`. -/
structure SavedState where
  object_id : Nat
  free_objectids : List Nat
deriving DecidableEq, Repr

/-- `_store_states`: serialise the allocator state. -/
def store_states (s : ObjectStore) : SavedState :=
  { object_id := s.objectid, free_objectids := s.free_objectids }

/-- `_load_states`: read the persisted state back (defaults when no
`state.json` exists). -/
def load_states (statefile : Option SavedState) : Nat × List Nat :=
  match statefile with
  | none => (0, [])
  | some d => (d.object_id, d.free_objectids)

/-- `ObjectStore.close()`: persist the allocator state. -/
def ObjectStore.close (s : ObjectStore) : SavedState := store_states s

/-- `ObjectStore.__init__(path)` on a directory that already holds the given
link files, data files and (optionally) a `state.json`. -/
def openStore (links : List (Nat × Digest)) (datafiles : List (Digest × (Int × Bytes)))
    (statefile : Option SavedState) : ObjectStore :=
  let d := load_states statefile
  { objectid := d.1, free_objectids := d.2, links := links, datafiles := datafiles }

/-! ### Sequences of API calls -/

inductive Op where
  | putOp (x : Bytes)
  | getOp (oid : Nat)
  | delOp (oid : Nat)
deriving DecidableEq, Repr

def execOp (hash : Bytes → Digest) (s : ObjectStore) : Op → Option ObjectStore
  | Op.putOp x => (ObjectStore.put hash s x).map Prod.fst
  | Op.getOp oid => some (ObjectStore.get s oid).fst
  | Op.delOp oid => ObjectStore.delete s oid

def execOps (hash : Bytes → Digest) : List Op → ObjectStore → Option ObjectStore
  | [], s => some s
  | op :: ops, s => (execOp hash s op).bind (execOps hash ops)

/-- States reachable from an empty store by `put` and `delete` calls. -/
inductive Reachable (hash : Bytes → Digest) : ObjectStore → Prop where
  | init : Reachable hash initState
  | put (s : ObjectStore) (x : Bytes) (s' : ObjectStore) (oid : Nat) :
      Reachable hash s → ObjectStore.put hash s x = some (s', oid) →
      Reachable hash s'
  | del (s : ObjectStore) (oid : Nat) (s' : ObjectStore) :
      Reachable hash s → ObjectStore.delete s oid = some s' →
      Reachable hash s'

/-! ### Event trace of `put`

To reason about the order in which `put` performs its steps we re-embed the
body of `ObjectStore.put` once more, emitting one event per source action in
the order the code performs them. -/

inductive PutEvent where
  | digestComputed
  | allocated (oid : Nat)
  | tmpWritten
  | tmpDiscarded
  | installed
  | linkAdded (oid : Nat)
  | rcIncremented
deriving DecidableEq, Repr

/-- `ObjectStore.put` instrumented with its event trace: the digest is
computed first (line 121 of the source), the handle is allocated at the top
of the locked section (lines 126-130), the temporary-file write and the
install decision follow (lines 133-150) only when the content file is
absent, and the link write (line 153) and refcount increment (line 156)
come last. -/
def putTr (hash : Bytes → Digest) (s : ObjectStore) (data : Bytes) :
    Option ((ObjectStore × Nat) × List PutEvent) :=
  let hashcode := hash data
  let a := allocate s
  let oid := a.1
  let s1 := a.2
  let de :
      List (Digest × (Int × Bytes)) × List PutEvent :=
    match Assoc.find s1.datafiles hashcode with
    | some _ => (s1.datafiles, [])
    | none =>
      match Assoc.find s1.datafiles hashcode with
      | some _ => (s1.datafiles, [PutEvent.tmpWritten, PutEvent.tmpDiscarded])
      | none => (Assoc.set s1.datafiles hashcode (0, data),
        [PutEvent.tmpWritten, PutEvent.installed])
  let links := add_link s1.links oid hashcode
  match update_rc de.1 hashcode 1 with
  | none => none
  | some (dfs2, _) =>
    some (({ s1 with links := links, datafiles := dfs2 }, oid),
      PutEvent.digestComputed :: PutEvent.allocated oid ::
        (de.2 ++ [PutEvent.linkAdded oid, PutEvent.rcIncremented]))

def isAllocated : PutEvent → Bool
  | PutEvent.allocated _ => true
  | _ => false

/-- Events belonging to the ensure-the-content-file-exists block (the bulk
write of the temporary file and the install decision). -/
def isEnsure : PutEvent → Bool
  | PutEvent.tmpWritten => true
  | PutEvent.tmpDiscarded => true
  | PutEvent.installed => true
  | _ => false

/-- The trace of `put` on an empty store (content file absent). -/
def putCexTrace : List PutEvent :=
  [PutEvent.digestComputed, PutEvent.allocated 1, PutEvent.tmpWritten,
   PutEvent.installed, PutEvent.linkAdded 1, PutEvent.rcIncremented]

/-! ### Concurrent `put` calls

`put` holds the global lock except while writing the temporary file, and the
temporary file lives at a private name (`<digest>.<oid>`, unique because the
handles are allocated under the lock).  A thread executing `put(x)` is
therefore equivalent to at most two atomic critical sections on the shared
state:

* from `start`: allocate a handle and check whether the content file
  exists; if it does, continue (still under the lock) with the link write
  and refcount increment and finish; otherwise release the lock and write
  the private temporary file (no shared state touched), becoming `pending`;
* from `pending`: re-acquire the lock, re-check existence, install the
  temporary file if the content file is still absent (discard it
  otherwise), then write the link and increment the refcount.

An execution of N concurrent `put(x)` calls is any interleaving of these
atomic sections. -/

inductive ThreadPhase where
  | start
  | pending (oid : Nat)
  | done (oid : Nat)
deriving DecidableEq, Repr

/-- The tail of `put` once the content file question is settled: write the
link file, increment the refcount, release the lock. -/
def completePut (hash : Bytes → Digest) (x : Bytes) (s : ObjectStore) (oid : Nat) :
    Option ObjectStore :=
  let links := add_link s.links oid (hash x)
  match update_rc s.datafiles (hash x) 1 with
  | none => none
  | some (dfs, _) => some { s with links := links, datafiles := dfs }

/-- One atomic critical section of a thread running `put x`, acting on the
shared store.  `none` means the thread has no step (it is done). -/
def threadStep (hash : Bytes → Digest) (x : Bytes) (s : ObjectStore) :
    ThreadPhase → Option (ObjectStore × ThreadPhase)
  | ThreadPhase.start =>
    let a := allocate s
    let oid := a.1
    let s1 := a.2
    match Assoc.find s1.datafiles (hash x) with
    | some _ =>
      (completePut hash x s1 oid).map (fun s2 => (s2, ThreadPhase.done oid))
    | none => some (s1, ThreadPhase.pending oid)
  | ThreadPhase.pending oid =>
    let dfs :=
      match Assoc.find s.datafiles (hash x) with
      | some _ => s.datafiles
      | none => Assoc.set s.datafiles (hash x) (0, x)
    (completePut hash x { s with datafiles := dfs } oid).map
      (fun s2 => (s2, ThreadPhase.done oid))
  | ThreadPhase.done _ => none

structure SysConfig where
  store : ObjectStore
  threads : List ThreadPhase
deriving DecidableEq, Repr

/-- Interleaving semantics: any thread with a remaining critical section may
run it atomically. -/
inductive SysStep (hash : Bytes → Digest) (x : Bytes) : SysConfig → SysConfig → Prop where
  | step (s s' : ObjectStore) (l r : List ThreadPhase) (p p' : ThreadPhase)
      (h : threadStep hash x s p = some (s', p')) :
      SysStep hash x ⟨s, l ++ p :: r⟩ ⟨s', l ++ p' :: r⟩

/-- N threads about to call `put x` on a freshly created shared store. -/
def initConfig (n : Nat) : SysConfig :=
  ⟨initState, List.replicate n ThreadPhase.start⟩

def phaseOid : ThreadPhase → Option Nat
  | ThreadPhase.start => none
  | ThreadPhase.pending oid => some oid
  | ThreadPhase.done oid => some oid

def doneOid : ThreadPhase → Option Nat
  | ThreadPhase.done oid => some oid
  | _ => none

def isDone : ThreadPhase → Bool
  | ThreadPhase.done _ => true
  | _ => false

/-- Handles held (allocated) by the threads. -/
def oids (ts : List ThreadPhase) : List Nat := ts.filterMap phaseOid

/-- Handles returned by the threads that have completed their `put`. -/
def doneOids (ts : List ThreadPhase) : List Nat := ts.filterMap doneOid

/-! ### Concrete data for the end-to-end scenario -/

/-- ASCII bytes of the string used by the scenario. -/
def helloBytes : Bytes := [104, 101, 108, 108, 111, 32, 119, 111, 114, 108, 100, 33]

/-- ASCII bytes of the 101st, distinct content. -/
def anotherBytes : Bytes := [97, 110, 111, 116, 104, 101, 114, 32, 100, 97, 116, 97, 32, 49]

/-- ASCII bytes of the content stored after the delete. -/
def hello3Bytes : Bytes :=
  [104, 101, 108, 108, 111, 32, 119, 111, 114, 108, 100, 33, 32, 51]

/-- Run a sequence of `put` calls, collecting the returned handles. -/
def runPuts (hash : Bytes → Digest) : List Bytes → ObjectStore →
    Option (ObjectStore × List Nat)
  | [], s => some (s, [])
  | x :: xs, s =>
    match ObjectStore.put hash s x with
    | none => none
    | some (s', oid) =>
      match runPuts hash xs s' with
      | none => none
      | some (s'', oids) => some (s'', oid :: oids)

/-- The end-to-end scenario of the specification, §8, as one executable
check (digest function instantiated with the identity, which is injective as
the specification's collision-freeness assumption demands). -/
def scenarioCheck : Bool :=
  match runPuts id (List.replicate 100 helloBytes) initState with
  | none => false
  | some (s0, handles) =>
    decide (handles = List.range' 1 100) &&
    match ObjectStore.put id s0 anotherBytes with
    | none => false
    | some (s1, h101) =>
      decide (h101 = 101) &&
      decide ((ObjectStore.get s1 1).2 = some (some helloBytes)) &&
      decide ((ObjectStore.get s1 101).2 = some (some anotherBytes)) &&
      decide ((ObjectStore.get s1 200).2 = some none) &&
      match ObjectStore.delete s1 100 with
      | none => false
      | some s2 =>
        decide ((ObjectStore.get s2 100).2 = some none) &&
        match ObjectStore.put id s2 hello3Bytes with
        | none => false
        | some (s3, h100) =>
          decide (h100 = 100) &&
          decide ((ObjectStore.get s3 100).2 = some (some hello3Bytes))

/-- A store reached by `put [1]; put [2]; delete 2; delete 1`: both handles
have been freed, handle 1 most recently (`delete` prepends, so the pool is
`[1, 2]`). -/
def poolState : ObjectStore :=
  { objectid := 2, free_objectids := [1, 2], links := [], datafiles := [] }

/-- Number of content files on disk whose payload is exactly `b`. -/
def countContent : List (Digest × (Int × Bytes)) → Bytes → Nat
  | [], _ => 0
  | e :: t, b => (if e.2.2 = b then 1 else 0) + countContent t b

/-- Invariant of a system of N threads concurrently executing `put x` on an
initially empty shared store: the free pool stays empty, the counter equals
the number of handles handed out, handles are positive, distinct and
bounded by the counter, the link files are exactly those written by
completed threads (all naming `hash x`), and the content file for `hash x`
exists iff some thread has completed, with its refcount header equal to the
number of completed threads. -/
structure CInv (hash : Bytes → Digest) (x : Bytes) (c : SysConfig) : Prop where
  free_empty : c.store.free_objectids = []
  counter : c.store.objectid = (oids c.threads).length
  oids_nodup : (oids c.threads).Nodup
  oids_range : ∀ oid ∈ oids c.threads, 1 ≤ oid ∧ oid ≤ c.store.objectid
  links_shape : ∀ p ∈ c.store.links, p.2 = hash x ∧ p.1 ∈ doneOids c.threads
  links_nodup : (Assoc.keys c.store.links).Nodup
  data_shape : (doneOids c.threads = [] ∧ c.store.datafiles = []) ∨
    (doneOids c.threads ≠ [] ∧ c.store.datafiles
      = [(hash x, (((doneOids c.threads).length : Int), x))])

/-! ### The store invariant -/

/-- Invariant tying together the link directory, the data directory and the
allocator of a store. -/
structure StoreInv (hash : Bytes → Digest) (s : ObjectStore) : Prop where
  links_keys_nodup : (Assoc.keys s.links).Nodup
  data_keys_nodup : (Assoc.keys s.datafiles).Nodup
  link_range : ∀ p ∈ s.links, 1 ≤ p.1 ∧ p.1 ≤ s.objectid ∧ p.1 ∉ s.free_objectids
  free_nodup : s.free_objectids.Nodup
  free_range : ∀ oid ∈ s.free_objectids, 1 ≤ oid ∧ oid ≤ s.objectid
  rc_eq : ∀ d rc b, Assoc.find s.datafiles d = some (rc, b) →
      rc = (Assoc.countVal s.links d : Int) ∧ 0 < rc
  absent_no_links : ∀ d, Assoc.find s.datafiles d = none →
      Assoc.countVal s.links d = 0
  data_hashes : ∀ e ∈ s.datafiles, hash e.2.2 = e.1

/-! ## Theorems

### Association-list lemmas -/

set_option linter.unusedSectionVars false

namespace Assoc

variable {α β : Type} [DecidableEq α]

theorem find_erase_self (t : List (α × β)) (k : α) : find (erase t k) k = none := by
  induction t with
  | nil => rfl
  | cons e t ih =>
    by_cases h : e.1 = k <;> simp [erase, find, h, ih]

theorem find_erase_ne (t : List (α × β)) (k k' : α) (h : k' ≠ k) :
    find (erase t k) k' = find t k' := by
  induction t with
  | nil => rfl
  | cons e t ih =>
    by_cases h1 : e.1 = k
    · have h2 : k ≠ k' := fun hh => h hh.symm
      simp [erase, find, h1, h2, ih]
    · simp [erase, find, h1, ih]

theorem find_eq_none_iff (t : List (α × β)) (k : α) :
    find t k = none ↔ k ∉ keys t := by
  induction t with
  | nil => simp [find, keys]
  | cons e t ih =>
    by_cases h : e.1 = k
    · simp [find, keys, h]
    · simp [find, keys, h, (Ne.symm h : k ≠ e.1), ih]

theorem erase_of_find_none (t : List (α × β)) (k : α) (h : find t k = none) :
    erase t k = t := by
  induction t with
  | nil => rfl
  | cons e t ih =>
    by_cases h1 : e.1 = k
    · simp [find, h1] at h
    · simp only [find, h1, if_false] at h
      simp [erase, h1, ih h]

theorem find_eq_none (t : List (α × β)) (k : α) (h : ∀ p ∈ t, p.1 ≠ k) :
    find t k = none := by
  induction t with
  | nil => rfl
  | cons e t ih =>
    simp only [find, h e (List.mem_cons_self e t), if_false]
    exact ih fun p hp => h p (List.mem_cons_of_mem e hp)

theorem find_some_mem (t : List (α × β)) (k : α) (v : β)
    (h : find t k = some v) : (k, v) ∈ t := by
  induction t with
  | nil => simp [find] at h
  | cons e t ih =>
    by_cases h1 : e.1 = k
    · simp only [find, h1, if_true, Option.some.injEq] at h
      subst h; subst h1
      exact List.mem_cons_self _ _
    · simp only [find, h1, if_false] at h
      exact List.mem_cons_of_mem e (ih h)

theorem mem_erase_iff (x : α × β) (t : List (α × β)) (k : α) :
    x ∈ erase t k ↔ x ∈ t ∧ x.1 ≠ k := by
  induction t with
  | nil => simp [erase]
  | cons e t ih =>
    by_cases h : e.1 = k
    · simp only [erase, h, if_true, ih, List.mem_cons]
      constructor
      · exact fun ⟨hx, hn⟩ => ⟨Or.inr hx, hn⟩
      · rintro ⟨hx | hx, hn⟩
        · exact absurd (hx ▸ h) hn
        · exact ⟨hx, hn⟩
    · simp only [erase, h, if_false, List.mem_cons, ih]
      constructor
      · rintro (hx | ⟨hx, hn⟩)
        · exact ⟨Or.inl hx, hx ▸ h⟩
        · exact ⟨Or.inr hx, hn⟩
      · rintro ⟨hx | hx, hn⟩
        · exact Or.inl hx
        · exact Or.inr ⟨hx, hn⟩

theorem erase_sublist (t : List (α × β)) (k : α) : (erase t k).Sublist t := by
  induction t with
  | nil => exact List.Sublist.refl []
  | cons e t ih =>
    by_cases h : e.1 = k
    · simpa [erase, h] using ih.cons e
    · simpa [erase, h] using ih.cons₂ e

theorem find_set_self (t : List (α × β)) (k : α) (v : β) :
    find (set t k v) k = some v := by
  show (if k = k then some v else find (erase t k) k) = some v
  rw [if_pos rfl]

theorem find_set_ne (t : List (α × β)) (k : α) (v : β) (k' : α) (h : k' ≠ k) :
    find (set t k v) k' = find t k' := by
  show (if k = k' then some v else find (erase t k) k') = find t k'
  rw [if_neg (fun hh => h hh.symm)]
  exact find_erase_ne t k k' h

theorem not_mem_keys_erase (t : List (α × β)) (k : α) : k ∉ keys (erase t k) :=
  (find_eq_none_iff (erase t k) k).mp (find_erase_self t k)

theorem keys_nodup_erase (t : List (α × β)) (k : α)
    (h : (keys t).Nodup) : (keys (erase t k)).Nodup :=
  ((erase_sublist t k).map Prod.fst).nodup h

theorem keys_nodup_set (t : List (α × β)) (k : α) (v : β)
    (h : (keys t).Nodup) : (keys (set t k v)).Nodup := by
  simp only [set, keys, List.map_cons, List.nodup_cons]
  exact ⟨not_mem_keys_erase t k, keys_nodup_erase t k h⟩

theorem erase_set_self (t : List (α × β)) (k : α) (v : β) :
    erase (set t k v) k = erase t k := by
  show (if k = k then erase (erase t k) k else (k, v) :: erase (erase t k) k)
      = erase t k
  rw [if_pos rfl]
  exact erase_of_find_none _ _ (find_erase_self t k)

theorem set_set (t : List (α × β)) (k : α) (v v' : β) :
    set (set t k v) k v' = set t k v' :=
  congrArg (fun l => (k, v') :: l) (erase_set_self t k v)

theorem countVal_eq_zero [DecidableEq β] (t : List (α × β)) (v : β)
    (h : ∀ e ∈ t, e.2 ≠ v) : countVal t v = 0 := by
  induction t with
  | nil => rfl
  | cons e t ih =>
    simp only [countVal, h e (List.mem_cons_self e t), if_false, Nat.zero_add]
    exact ih fun f hf => h f (List.mem_cons_of_mem e hf)

theorem countVal_pos_of_mem [DecidableEq β] (t : List (α × β)) (k : α) (v : β)
    (h : (k, v) ∈ t) : 0 < countVal t v := by
  induction t with
  | nil => simp at h
  | cons e t ih =>
    rcases List.mem_cons.mp h with he | ht
    · simp [countVal, ← he]
    · calc 0 < countVal t v := ih ht
        _ ≤ countVal (e :: t) v := Nat.le_add_left _ _

theorem countVal_erase [DecidableEq β] (t : List (α × β)) (k : α) (v : β)
    (hn : (keys t).Nodup) (hf : find t k = some v) (v' : β) :
    countVal t v' = countVal (erase t k) v' + (if v = v' then 1 else 0) := by
  induction t with
  | nil => simp [find] at hf
  | cons e t ih =>
    simp only [keys, List.map_cons, List.nodup_cons] at hn
    by_cases h1 : e.1 = k
    · simp only [find, h1, if_true, Option.some.injEq] at hf
      have htk : find t k = none := by
        rw [find_eq_none_iff]
        exact h1 ▸ hn.1
      simp only [erase, h1, if_true, erase_of_find_none t k htk, countVal, ← hf]
      omega
    · simp only [find, h1, if_false] at hf
      simp only [erase, h1, if_false, countVal, ih hn.2 hf]
      omega

theorem countVal_ge_two [DecidableEq β] (t : List (α × β)) (k1 k2 : α) (v : β)
    (h1 : (k1, v) ∈ t) (h2 : (k2, v) ∈ t) (hne : k1 ≠ k2) :
    2 ≤ countVal t v := by
  induction t with
  | nil => simp at h1
  | cons e t ih =>
    rcases List.mem_cons.mp h1 with he1 | ht1 <;>
      rcases List.mem_cons.mp h2 with he2 | ht2
    · exact absurd (congrArg Prod.fst (he1.trans he2.symm)) hne
    · subst he1
      have hpos := countVal_pos_of_mem t k2 v ht2
      have hc : countVal ((k1, v) :: t) v = 1 + countVal t v := by
        simp [countVal]
      omega
    · subst he2
      have hpos := countVal_pos_of_mem t k1 v ht1
      have hc : countVal ((k2, v) :: t) v = 1 + countVal t v := by
        simp [countVal]
      omega
    · have := ih ht1 ht2
      have hc : countVal t v ≤ countVal (e :: t) v := by
        simp only [countVal]
        omega
      omega

theorem mem_keys_of_mem (t : List (α × β)) (p : α × β) (h : p ∈ t) :
    p.1 ∈ keys t := List.mem_map_of_mem Prod.fst h

end Assoc

/-! ### Allocation lemmas -/

theorem allocate_nil (s : ObjectStore) (h : s.free_objectids = []) :
    allocate s = (s.objectid + 1, { s with objectid := s.objectid + 1 }) := by
  unfold allocate
  rw [h]
  rfl

theorem allocate_concat (s : ObjectStore) (l : List Nat) (a : Nat)
    (h : s.free_objectids = l ++ [a]) :
    allocate s = (a, { s with free_objectids := l }) := by
  unfold allocate
  rw [h, List.getLast?_concat, List.dropLast_concat]

theorem allocate_snd_links (s : ObjectStore) : (allocate s).2.links = s.links := by
  rcases List.eq_nil_or_concat s.free_objectids with h | ⟨l, a, h⟩
  · rw [allocate_nil s h]
  · rw [List.concat_eq_append] at h
    rw [allocate_concat s l a h]

theorem allocate_snd_datafiles (s : ObjectStore) :
    (allocate s).2.datafiles = s.datafiles := by
  rcases List.eq_nil_or_concat s.free_objectids with h | ⟨l, a, h⟩
  · rw [allocate_nil s h]
  · rw [List.concat_eq_append] at h
    rw [allocate_concat s l a h]

theorem allocate_objectid_le (s : ObjectStore) :
    s.objectid ≤ (allocate s).2.objectid := by
  rcases List.eq_nil_or_concat s.free_objectids with h | ⟨l, a, h⟩
  · rw [allocate_nil s h]; exact Nat.le_succ _
  · rw [List.concat_eq_append] at h
    rw [allocate_concat s l a h]

theorem allocate_free_sublist (s : ObjectStore) :
    (allocate s).2.free_objectids.Sublist s.free_objectids := by
  rcases List.eq_nil_or_concat s.free_objectids with h | ⟨l, a, h⟩
  · rw [allocate_nil s h]
  · rw [List.concat_eq_append] at h
    rw [allocate_concat s l a h]
    show l.Sublist s.free_objectids
    rw [h]
    exact List.sublist_append_left l [a]

/-- Under the invariant the freshly allocated handle is positive, bounded by
the new counter, linked to nothing, and no longer in the free pool. -/
theorem alloc_fresh (hash : Bytes → Digest) (s : ObjectStore)
    (hinv : StoreInv hash s) :
    1 ≤ (allocate s).1 ∧ (allocate s).1 ≤ (allocate s).2.objectid ∧
    (∀ p ∈ s.links, p.1 ≠ (allocate s).1) ∧
    (allocate s).1 ∉ (allocate s).2.free_objectids := by
  rcases List.eq_nil_or_concat s.free_objectids with h | ⟨l, a, h⟩
  · rw [allocate_nil s h]
    refine ⟨Nat.succ_le_succ (Nat.zero_le _), Nat.le_refl _, ?_, ?_⟩
    · intro p hp heq
      have := (hinv.link_range p hp).2.1
      omega
    · show s.objectid + 1 ∉ s.free_objectids
      rw [h]
      exact List.not_mem_nil _
  · rw [List.concat_eq_append] at h
    rw [allocate_concat s l a h]
    have ha : a ∈ s.free_objectids := by
      rw [h]; exact List.mem_append_right l (List.mem_singleton.mpr rfl)
    have hrange := hinv.free_range a ha
    refine ⟨hrange.1, hrange.2, ?_, ?_⟩
    · intro p hp heq
      exact (hinv.link_range p hp).2.2 (heq ▸ ha)
    · show a ∉ l
      have hnd : (l ++ [a]).Nodup := h ▸ hinv.free_nodup
      have := (List.nodup_append.mp hnd).2.2
      intro hal
      exact this hal (List.mem_singleton.mpr rfl)

theorem alloc_no_link (hash : Bytes → Digest) (s : ObjectStore)
    (hinv : StoreInv hash s) :
    Assoc.find s.links (allocate s).1 = none :=
  Assoc.find_eq_none _ _ (alloc_fresh hash s hinv).2.2.1

/-! ### Characterisations of `update_rc`, `put` and `delete` -/

theorem update_rc_some (dfs : List (Digest × (Int × Bytes))) (d : Digest)
    (offset rc : Int) (b : Bytes) (hf : Assoc.find dfs d = some (rc, b)) :
    update_rc dfs d offset =
      if 0 < rc + offset then some (Assoc.set dfs d (rc + offset, b), rc + offset)
      else some (dfs, rc + offset) := by
  unfold update_rc
  rw [hf]

/-- What `put` does, provided every pre-existing refcount for the digest is
positive (which the invariant guarantees): it returns the freshly allocated
handle, overwrites the link file for it, and either bumps the refcount of
the existing content file or installs a new one with refcount 1. -/
theorem put_spec (hash : Bytes → Digest) (s : ObjectStore) (x : Bytes)
    (hrc : ∀ rc b, Assoc.find s.datafiles (hash x) = some (rc, b) → 0 < rc) :
    (∃ rc b, Assoc.find s.datafiles (hash x) = some (rc, b) ∧
        ObjectStore.put hash s x = some
          ({ (allocate s).2 with
              links := add_link s.links (allocate s).1 (hash x),
              datafiles := Assoc.set s.datafiles (hash x) (rc + 1, b) },
            (allocate s).1)) ∨
    (Assoc.find s.datafiles (hash x) = none ∧
        ObjectStore.put hash s x = some
          ({ (allocate s).2 with
              links := add_link s.links (allocate s).1 (hash x),
              datafiles := Assoc.set s.datafiles (hash x) (1, x) },
            (allocate s).1)) := by
  have hl := allocate_snd_links s
  have hd := allocate_snd_datafiles s
  unfold ObjectStore.put
  simp only [hl, hd]
  rcases hfind : Assoc.find s.datafiles (hash x) with _ | ⟨rc, b⟩
  · right
    refine ⟨rfl, ?_⟩
    dsimp only
    rw [update_rc_some _ _ 1 0 x (Assoc.find_set_self _ _ _)]
    norm_num [Assoc.set_set]
  · left
    have hpos : (0 : Int) < rc + 1 := by have := hrc rc b hfind; omega
    refine ⟨rc, b, rfl, ?_⟩
    dsimp only
    rw [update_rc_some _ _ 1 rc b hfind, if_pos hpos]

/-- What `delete` does on a live handle whose content file exists with a
positive refcount: decrement-and-keep when other links remain, decrement-
and-remove when this was the last link; either way the link file is removed
and the handle is prepended to the free pool. -/
theorem delete_spec (s : ObjectStore) (oid : Nat) (dg : Digest) (rc : Int)
    (b : Bytes) (hl : read_link s.links oid = some dg)
    (hd : Assoc.find s.datafiles dg = some (rc, b)) (hrc : 1 ≤ rc) :
    (1 < rc ∧ ObjectStore.delete s oid = some
        { s with datafiles := Assoc.set s.datafiles dg (rc - 1, b),
                 links := Assoc.erase s.links oid,
                 free_objectids := oid :: s.free_objectids }) ∨
    (rc = 1 ∧ ObjectStore.delete s oid = some
        { s with datafiles := Assoc.erase s.datafiles dg,
                 links := Assoc.erase s.links oid,
                 free_objectids := oid :: s.free_objectids }) := by
  unfold ObjectStore.delete
  rw [hl]
  dsimp only
  rw [update_rc_some s.datafiles dg (-1) rc b hd]
  by_cases h1 : (1 : Int) < rc
  · refine Or.inl ⟨h1, ?_⟩
    rw [if_pos (show (0 : Int) < rc + -1 by omega)]
    dsimp only
    rw [if_neg (show ¬ rc + -1 = 0 by omega), show rc + -1 = rc - 1 by omega]
  · refine Or.inr ⟨by omega, ?_⟩
    have he : rc = 1 := by omega
    subst he
    rw [if_neg (show ¬ (0 : Int) < 1 + -1 by omega)]
    dsimp only
    rw [if_pos (show (1 : Int) + -1 = 0 by omega)]

/-! ### Invariant preservation -/

theorem add_link_fresh (links : List (Nat × Digest)) (oid : Nat) (dg : Digest)
    (hfresh : ∀ p ∈ links, p.1 ≠ oid) :
    add_link links oid dg = (oid, dg) :: links := by
  unfold add_link Assoc.set
  rw [Assoc.erase_of_find_none _ _ (Assoc.find_eq_none _ _ hfresh)]

theorem storeInv_init (hash : Bytes → Digest) : StoreInv hash initState := by
  refine ⟨List.nodup_nil, List.nodup_nil, ?_, List.nodup_nil, ?_, ?_, ?_, ?_⟩
  · intro p hp; simp [initState] at hp
  · intro oid h; simp [initState] at h
  · intro d rc b h; simp [initState, Assoc.find] at h
  · intro d _; rfl
  · intro e he; simp [initState] at he

theorem put_preserves_inv (hash : Bytes → Digest) (s : ObjectStore) (x : Bytes)
    (s' : ObjectStore) (oid : Nat) (hinv : StoreInv hash s)
    (hp : ObjectStore.put hash s x = some (s', oid)) : StoreInv hash s' := by
  have hrc : ∀ rc b, Assoc.find s.datafiles (hash x) = some (rc, b) → 0 < rc :=
    fun rc b hf => (hinv.rc_eq (hash x) rc b hf).2
  obtain ⟨h1, h2, h3, h4⟩ := alloc_fresh hash s hinv
  have hAL := add_link_fresh s.links (allocate s).1 (hash x) h3
  have hNotKeys : (allocate s).1 ∉ Assoc.keys s.links :=
    (Assoc.find_eq_none_iff s.links (allocate s).1).mp (Assoc.find_eq_none _ _ h3)
  have hSub := allocate_free_sublist s
  have hObj := allocate_objectid_le s
  rcases put_spec hash s x hrc with ⟨rc, b, hf, heq⟩ | ⟨hf, heq⟩
  · rw [heq] at hp
    simp only [Option.some.injEq, Prod.mk.injEq] at hp
    obtain ⟨rfl, rfl⟩ := hp
    refine ⟨?_, ?_, ?_, ?_, ?_, ?_, ?_, ?_⟩
    · show (Assoc.keys (add_link s.links (allocate s).1 (hash x))).Nodup
      rw [hAL]
      exact List.nodup_cons.mpr ⟨hNotKeys, hinv.links_keys_nodup⟩
    · exact Assoc.keys_nodup_set _ _ _ hinv.data_keys_nodup
    · intro p hp
      rw [hAL] at hp
      rcases List.mem_cons.mp hp with rfl | hp
      · exact ⟨h1, h2, h4⟩
      · have hold := hinv.link_range p hp
        exact ⟨hold.1, hold.2.1.trans hObj, fun hm => hold.2.2 (hSub.subset hm)⟩
    · exact hSub.nodup hinv.free_nodup
    · intro o ho
      have hold := hinv.free_range o (hSub.subset ho)
      exact ⟨hold.1, hold.2.trans hObj⟩
    · intro d rc' b' hfd
      rw [hAL]
      show rc' = ((if hash x = d then 1 else 0) + Assoc.countVal s.links d : Nat) ∧ 0 < rc'
      by_cases hd : hash x = d
      · subst hd
        rw [Assoc.find_set_self] at hfd
        obtain ⟨rfl, rfl⟩ : rc + 1 = rc' ∧ b = b' := by
          simpa [eq_comm] using hfd
        have hold := hinv.rc_eq (hash x) rc b hf
        rw [if_pos rfl]
        constructor
        · rw [hold.1]; push_cast; ring
        · omega
      · rw [Assoc.find_set_ne _ _ _ _ (fun hh => hd hh.symm)] at hfd
        have hold := hinv.rc_eq d rc' b' hfd
        rw [if_neg hd]
        exact ⟨by rw [hold.1]; push_cast; ring, hold.2⟩
    · intro d hfd
      show Assoc.countVal (add_link s.links (allocate s).1 (hash x)) d = 0
      rw [hAL]
      have hd : ¬ hash x = d := by
        intro hh
        rw [← hh, Assoc.find_set_self] at hfd
        exact Option.noConfusion hfd
      rw [Assoc.find_set_ne _ _ _ _ (fun hh => hd hh.symm)] at hfd
      show (if hash x = d then 1 else 0) + Assoc.countVal s.links d = 0
      rw [if_neg hd, hinv.absent_no_links d hfd]
    · intro e he
      rcases List.mem_cons.mp he with rfl | he
      · exact hinv.data_hashes (hash x, (rc, b)) (Assoc.find_some_mem _ _ _ hf)
      · exact hinv.data_hashes e ((Assoc.mem_erase_iff _ _ _).mp he).1
  · rw [heq] at hp
    simp only [Option.some.injEq, Prod.mk.injEq] at hp
    obtain ⟨rfl, rfl⟩ := hp
    refine ⟨?_, ?_, ?_, ?_, ?_, ?_, ?_, ?_⟩
    · show (Assoc.keys (add_link s.links (allocate s).1 (hash x))).Nodup
      rw [hAL]
      exact List.nodup_cons.mpr ⟨hNotKeys, hinv.links_keys_nodup⟩
    · exact Assoc.keys_nodup_set _ _ _ hinv.data_keys_nodup
    · intro p hp
      rw [hAL] at hp
      rcases List.mem_cons.mp hp with rfl | hp
      · exact ⟨h1, h2, h4⟩
      · have hold := hinv.link_range p hp
        exact ⟨hold.1, hold.2.1.trans hObj, fun hm => hold.2.2 (hSub.subset hm)⟩
    · exact hSub.nodup hinv.free_nodup
    · intro o ho
      have hold := hinv.free_range o (hSub.subset ho)
      exact ⟨hold.1, hold.2.trans hObj⟩
    · intro d rc' b' hfd
      rw [hAL]
      show rc' = ((if hash x = d then 1 else 0) + Assoc.countVal s.links d : Nat) ∧ 0 < rc'
      by_cases hd : hash x = d
      · subst hd
        rw [Assoc.find_set_self] at hfd
        obtain ⟨rfl, rfl⟩ : (1 : Int) = rc' ∧ x = b' := by
          simpa [eq_comm] using hfd
        rw [if_pos rfl, hinv.absent_no_links (hash x) hf]
        norm_num
      · rw [Assoc.find_set_ne _ _ _ _ (fun hh => hd hh.symm)] at hfd
        have hold := hinv.rc_eq d rc' b' hfd
        rw [if_neg hd]
        exact ⟨by rw [hold.1]; push_cast; ring, hold.2⟩
    · intro d hfd
      show Assoc.countVal (add_link s.links (allocate s).1 (hash x)) d = 0
      rw [hAL]
      have hd : ¬ hash x = d := by
        intro hh
        rw [← hh, Assoc.find_set_self] at hfd
        exact Option.noConfusion hfd
      rw [Assoc.find_set_ne _ _ _ _ (fun hh => hd hh.symm)] at hfd
      show (if hash x = d then 1 else 0) + Assoc.countVal s.links d = 0
      rw [if_neg hd, hinv.absent_no_links d hfd]
    · intro e he
      rcases List.mem_cons.mp he with rfl | he
      · rfl
      · exact hinv.data_hashes e ((Assoc.mem_erase_iff _ _ _).mp he).1

theorem delete_no_link (s : ObjectStore) (oid : Nat)
    (hl : read_link s.links oid = none) : ObjectStore.delete s oid = some s := by
  unfold ObjectStore.delete
  rw [hl]

theorem delete_preserves_inv (hash : Bytes → Digest) (s : ObjectStore) (oid : Nat)
    (s' : ObjectStore) (hinv : StoreInv hash s)
    (hp : ObjectStore.delete s oid = some s') : StoreInv hash s' := by
  rcases hl : read_link s.links oid with _ | dg
  · rw [delete_no_link s oid hl] at hp
    simp only [Option.some.injEq] at hp
    exact hp ▸ hinv
  · have hmem : (oid, dg) ∈ s.links := Assoc.find_some_mem _ _ _ hl
    have hcv : 0 < Assoc.countVal s.links dg :=
      Assoc.countVal_pos_of_mem _ _ _ hmem
    obtain ⟨rc, b, hfd⟩ : ∃ rc b, Assoc.find s.datafiles dg = some (rc, b) := by
      rcases hfd : Assoc.find s.datafiles dg with _ | ⟨rc, b⟩
      · have := hinv.absent_no_links dg hfd
        omega
      · exact ⟨rc, b, rfl⟩
    obtain ⟨hr1, hr2⟩ := hinv.rc_eq dg rc b hfd
    have hoid := hinv.link_range (oid, dg) hmem
    have hCV : ∀ d', Assoc.countVal s.links d' =
        Assoc.countVal (Assoc.erase s.links oid) d' + (if dg = d' then 1 else 0) :=
      fun d' => Assoc.countVal_erase s.links oid dg hinv.links_keys_nodup hl d'
    have hLrange : ∀ p, p ∈ Assoc.erase s.links oid →
        1 ≤ p.1 ∧ p.1 ≤ s.objectid ∧ p.1 ∉ oid :: s.free_objectids := by
      intro p hp'
      obtain ⟨hpm, hpne⟩ := (Assoc.mem_erase_iff p s.links oid).mp hp'
      have hold := hinv.link_range p hpm
      refine ⟨hold.1, hold.2.1, ?_⟩
      intro hc
      rcases List.mem_cons.mp hc with hc | hc
      · exact hpne hc
      · exact hold.2.2 hc
    have hFnodup : (oid :: s.free_objectids).Nodup :=
      List.nodup_cons.mpr ⟨hoid.2.2, hinv.free_nodup⟩
    have hFrange : ∀ o ∈ oid :: s.free_objectids, 1 ≤ o ∧ o ≤ s.objectid := by
      intro o ho
      rcases List.mem_cons.mp ho with rfl | ho
      · exact ⟨hoid.1, hoid.2.1⟩
      · exact hinv.free_range o ho
    rcases delete_spec s oid dg rc b hl hfd (by omega) with ⟨hgt, heq⟩ | ⟨hone, heq⟩
    · rw [heq] at hp
      simp only [Option.some.injEq] at hp
      subst hp
      refine ⟨Assoc.keys_nodup_erase _ _ hinv.links_keys_nodup,
        Assoc.keys_nodup_set _ _ _ hinv.data_keys_nodup,
        hLrange, hFnodup, hFrange, ?_, ?_, ?_⟩
      · intro d' rc' b' hfd'
        have hfd2 : Assoc.find (Assoc.set s.datafiles dg (rc - 1, b)) d'
            = some (rc', b') := hfd'
        by_cases hd : dg = d'
        · subst hd
          rw [Assoc.find_set_self] at hfd2
          obtain ⟨rfl, rfl⟩ : rc - 1 = rc' ∧ b = b' := by
            simpa [eq_comm] using hfd2
          have h1 := hCV dg
          rw [if_pos rfl] at h1
          refine ⟨?_, by omega⟩
          show rc - 1 = (Assoc.countVal (Assoc.erase s.links oid) dg : Int)
          omega
        · rw [Assoc.find_set_ne _ _ _ _ (fun hh => hd hh.symm)] at hfd2
          obtain ⟨ho1, ho2⟩ := hinv.rc_eq d' rc' b' hfd2
          have h1 := hCV d'
          rw [if_neg hd] at h1
          refine ⟨?_, ho2⟩
          show rc' = (Assoc.countVal (Assoc.erase s.links oid) d' : Int)
          omega
      · intro d' hfd'
        have hfd2 : Assoc.find (Assoc.set s.datafiles dg (rc - 1, b)) d' = none := hfd'
        have hd : ¬ dg = d' := by
          intro hh
          rw [← hh, Assoc.find_set_self] at hfd2
          exact Option.noConfusion hfd2
        rw [Assoc.find_set_ne _ _ _ _ (fun hh => hd hh.symm)] at hfd2
        have h0 := hinv.absent_no_links d' hfd2
        have h1 := hCV d'
        rw [if_neg hd] at h1
        show Assoc.countVal (Assoc.erase s.links oid) d' = 0
        omega
      · intro e he
        have he2 : e ∈ Assoc.set s.datafiles dg (rc - 1, b) := he
        rcases List.mem_cons.mp he2 with rfl | he3
        · exact hinv.data_hashes (dg, (rc, b)) (Assoc.find_some_mem _ _ _ hfd)
        · exact hinv.data_hashes e ((Assoc.mem_erase_iff _ _ _).mp he3).1
    · rw [heq] at hp
      simp only [Option.some.injEq] at hp
      subst hp
      refine ⟨Assoc.keys_nodup_erase _ _ hinv.links_keys_nodup,
        Assoc.keys_nodup_erase _ _ hinv.data_keys_nodup,
        hLrange, hFnodup, hFrange, ?_, ?_, ?_⟩
      · intro d' rc' b' hfd'
        have hfd2 : Assoc.find (Assoc.erase s.datafiles dg) d' = some (rc', b') := hfd'
        by_cases hd : dg = d'
        · subst hd
          rw [Assoc.find_erase_self] at hfd2
          exact Option.noConfusion hfd2
        · rw [Assoc.find_erase_ne _ _ _ (fun hh => hd hh.symm)] at hfd2
          obtain ⟨ho1, ho2⟩ := hinv.rc_eq d' rc' b' hfd2
          have h1 := hCV d'
          rw [if_neg hd] at h1
          refine ⟨?_, ho2⟩
          show rc' = (Assoc.countVal (Assoc.erase s.links oid) d' : Int)
          omega
      · intro d' hfd'
        have hfd2 : Assoc.find (Assoc.erase s.datafiles dg) d' = none := hfd'
        show Assoc.countVal (Assoc.erase s.links oid) d' = 0
        by_cases hd : dg = d'
        · subst hd
          have h1 := hCV dg
          rw [if_pos rfl] at h1
          omega
        · rw [Assoc.find_erase_ne _ _ _ (fun hh => hd hh.symm)] at hfd2
          have h0 := hinv.absent_no_links d' hfd2
          have h1 := hCV d'
          rw [if_neg hd] at h1
          omega
      · intro e he
        have he2 : e ∈ Assoc.erase s.datafiles dg := he
        exact hinv.data_hashes e ((Assoc.mem_erase_iff _ _ _).mp he2).1

/-- Every reachable state satisfies the invariant. -/
theorem reachable_inv (hash : Bytes → Digest) (s : ObjectStore)
    (hs : Reachable hash s) : StoreInv hash s := by
  induction hs with
  | init => exact storeInv_init hash
  | put s x s' oid _ hp ih => exact put_preserves_inv hash s x s' oid ih hp
  | del s oid s' _ hp ih => exact delete_preserves_inv hash s oid s' ih hp

/-! ### `get` characterisations and stability under later operations -/

theorem get_fst (s : ObjectStore) (oid : Nat) : (ObjectStore.get s oid).1 = s := by
  unfold ObjectStore.get
  rcases read_link s.links oid with _ | dg
  · rfl
  · dsimp only
    rcases Assoc.find s.datafiles dg with _ | ⟨rc, b⟩ <;> rfl

theorem get_of_link (s : ObjectStore) (h : Nat) (dg : Digest) (rc : Int) (x : Bytes)
    (hl : read_link s.links h = some dg)
    (hd : Assoc.find s.datafiles dg = some (rc, x)) :
    ObjectStore.get s h = (s, some (some x)) := by
  unfold ObjectStore.get
  rw [hl]
  dsimp only
  rw [hd]

theorem get_no_link (s : ObjectStore) (h : Nat)
    (hl : read_link s.links h = none) : ObjectStore.get s h = (s, some none) := by
  unfold ObjectStore.get
  rw [hl]

/-- After a successful `put`, the returned handle links to the digest of the
stored bytes and the content file for that digest holds exactly those bytes
(given collision-freeness of the digest function). -/
theorem put_post (hash : Bytes → Digest) (hinj : Function.Injective hash)
    (s : ObjectStore) (x : Bytes) (s' : ObjectStore) (oid : Nat)
    (hinv : StoreInv hash s)
    (hp : ObjectStore.put hash s x = some (s', oid)) :
    read_link s'.links oid = some (hash x) ∧
    ∃ rc, Assoc.find s'.datafiles (hash x) = some (rc, x) := by
  have hrc : ∀ rc b, Assoc.find s.datafiles (hash x) = some (rc, b) → 0 < rc :=
    fun rc b hf => (hinv.rc_eq (hash x) rc b hf).2
  rcases put_spec hash s x hrc with ⟨rc, b, hf, heq⟩ | ⟨hf, heq⟩ <;>
    rw [heq] at hp <;> simp only [Option.some.injEq, Prod.mk.injEq] at hp <;>
    obtain ⟨rfl, rfl⟩ := hp
  · have hb : b = x :=
      hinj (hinv.data_hashes (hash x, (rc, b)) (Assoc.find_some_mem _ _ _ hf))
    subst hb
    exact ⟨Assoc.find_set_self _ _ _, rc + 1, Assoc.find_set_self _ _ _⟩
  · exact ⟨Assoc.find_set_self _ _ _, 1, Assoc.find_set_self _ _ _⟩

theorem execOp_inv (hash : Bytes → Digest) (s : ObjectStore) (op : Op)
    (s₂ : ObjectStore) (hinv : StoreInv hash s)
    (hop : execOp hash s op = some s₂) : StoreInv hash s₂ := by
  cases op with
  | putOp x =>
    rcases hput : ObjectStore.put hash s x with _ | ⟨s3, oid⟩
    · simp only [execOp, hput, Option.map_none'] at hop
      exact Option.noConfusion hop
    · simp only [execOp, hput, Option.map_some', Option.some.injEq] at hop
      exact hop ▸ put_preserves_inv hash s x s3 oid hinv hput
  | getOp oid =>
    simp only [execOp, Option.some.injEq] at hop
    rw [← hop, get_fst]
    exact hinv
  | delOp oid =>
    exact delete_preserves_inv hash s oid s₂ hinv hop

/-- One API call that is not `delete h` keeps the link for `h` and the
payload of its content file intact. -/
theorem exec_stable (hash : Bytes → Digest) (s s₂ : ObjectStore) (op : Op)
    (h : Nat) (dg : Digest) (x : Bytes)
    (hinv : StoreInv hash s) (hop : execOp hash s op = some s₂)
    (hne : op ≠ Op.delOp h)
    (hl : read_link s.links h = some dg)
    (hd : ∃ rc, Assoc.find s.datafiles dg = some (rc, x)) :
    read_link s₂.links h = some dg ∧
    ∃ rc₂, Assoc.find s₂.datafiles dg = some (rc₂, x) := by
  obtain ⟨rc, hd⟩ := hd
  cases op with
  | getOp oid =>
    simp only [execOp, Option.some.injEq] at hop
    rw [← hop, get_fst]
    exact ⟨hl, rc, hd⟩
  | putOp y =>
    have hrcpos : ∀ rc' b, Assoc.find s.datafiles (hash y) = some (rc', b) → 0 < rc' :=
      fun rc' b hf => (hinv.rc_eq (hash y) rc' b hf).2
    obtain ⟨h1, h2, h3, h4⟩ := alloc_fresh hash s hinv
    have hfreshne : h ≠ (allocate s).1 := by
      intro hh
      have hn := Assoc.find_eq_none s.links (allocate s).1 h3
      rw [← hh] at hn
      have hl2 : Assoc.find s.links h = some dg := hl
      rw [hn] at hl2
      exact Option.noConfusion hl2
    rcases put_spec hash s y hrcpos with ⟨rc0, b0, hf0, heq⟩ | ⟨hf0, heq⟩ <;>
      simp only [execOp, heq, Option.map_some', Option.some.injEq] at hop <;>
      rw [← hop]
    · constructor
      · show Assoc.find (add_link s.links (allocate s).1 (hash y)) h = some dg
        rw [add_link, Assoc.find_set_ne _ _ _ _ hfreshne]
        exact hl
      · by_cases hdy : hash y = dg
        · subst hdy
          have hee : (rc0, b0) = (rc, x) := Option.some.inj (hf0.symm.trans hd)
          have he2 : b0 = x := congrArg Prod.snd hee
          subst he2
          exact ⟨rc0 + 1, Assoc.find_set_self _ _ _⟩
        · refine ⟨rc, ?_⟩
          show Assoc.find (Assoc.set s.datafiles (hash y) (rc0 + 1, b0)) dg = some (rc, x)
          rw [Assoc.find_set_ne _ _ _ _ (fun hh => hdy hh.symm)]
          exact hd
    · have hdy : hash y ≠ dg := by
        intro hh
        rw [hh, hd] at hf0
        exact Option.noConfusion hf0
      constructor
      · show Assoc.find (add_link s.links (allocate s).1 (hash y)) h = some dg
        rw [add_link, Assoc.find_set_ne _ _ _ _ hfreshne]
        exact hl
      · refine ⟨rc, ?_⟩
        show Assoc.find (Assoc.set s.datafiles (hash y) (1, y)) dg = some (rc, x)
        rw [Assoc.find_set_ne _ _ _ _ (fun hh => hdy hh.symm)]
        exact hd
  | delOp oid =>
    have hone : oid ≠ h := fun hh => hne (by rw [hh])
    simp only [execOp] at hop
    rcases hlo : read_link s.links oid with _ | dg'
    · rw [delete_no_link s oid hlo] at hop
      simp only [Option.some.injEq] at hop
      rw [← hop]
      exact ⟨hl, rc, hd⟩
    · have hmem' : (oid, dg') ∈ s.links := Assoc.find_some_mem _ _ _ hlo
      obtain ⟨rc', b', hfd'⟩ : ∃ rc' b',
          Assoc.find s.datafiles dg' = some (rc', b') := by
        rcases hfd' : Assoc.find s.datafiles dg' with _ | ⟨rc', b'⟩
        · have := hinv.absent_no_links dg' hfd'
          have := Assoc.countVal_pos_of_mem _ _ _ hmem'
          omega
        · exact ⟨rc', b', rfl⟩
      obtain ⟨hr1', hr2'⟩ := hinv.rc_eq dg' rc' b' hfd'
      rcases delete_spec s oid dg' rc' b' hlo hfd' (by omega)
        with ⟨hgt, heq⟩ | ⟨hone', heq⟩ <;>
        rw [heq] at hop <;> simp only [Option.some.injEq] at hop <;> rw [← hop]
      · constructor
        · show Assoc.find (Assoc.erase s.links oid) h = some dg
          rw [Assoc.find_erase_ne _ _ _ (fun hh => hone hh.symm)]
          exact hl
        · by_cases hdd : dg' = dg
          · subst hdd
            have hee : (rc', b') = (rc, x) := Option.some.inj (hfd'.symm.trans hd)
            have he2 : b' = x := congrArg Prod.snd hee
            subst he2
            exact ⟨rc' - 1, Assoc.find_set_self _ _ _⟩
          · refine ⟨rc, ?_⟩
            show Assoc.find (Assoc.set s.datafiles dg' (rc' - 1, b')) dg = some (rc, x)
            rw [Assoc.find_set_ne _ _ _ _ (fun hh => hdd hh.symm)]
            exact hd
      · have hdd : dg' ≠ dg := by
          intro hh
          subst hh
          have hmemh : (h, dg') ∈ s.links := Assoc.find_some_mem _ _ _ hl
          have h2c := Assoc.countVal_ge_two s.links oid h dg' hmem' hmemh hone
          omega
        constructor
        · show Assoc.find (Assoc.erase s.links oid) h = some dg
          rw [Assoc.find_erase_ne _ _ _ (fun hh => hone hh.symm)]
          exact hl
        · refine ⟨rc, ?_⟩
          show Assoc.find (Assoc.erase s.datafiles dg') dg = some (rc, x)
          rw [Assoc.find_erase_ne _ _ _ (fun hh => hdd hh.symm)]
          exact hd

theorem execOps_stable (hash : Bytes → Digest) (ops : List Op)
    (s s₂ : ObjectStore) (h : Nat) (dg : Digest) (x : Bytes)
    (hinv : StoreInv hash s) (hne : Op.delOp h ∉ ops)
    (hrun : execOps hash ops s = some s₂)
    (hl : read_link s.links h = some dg)
    (hd : ∃ rc, Assoc.find s.datafiles dg = some (rc, x)) :
    read_link s₂.links h = some dg ∧
    ∃ rc₂, Assoc.find s₂.datafiles dg = some (rc₂, x) := by
  induction ops generalizing s with
  | nil =>
    simp only [execOps, Option.some.injEq] at hrun
    rw [← hrun]
    exact ⟨hl, hd⟩
  | cons op ops ih =>
    simp only [execOps] at hrun
    rcases hop : execOp hash s op with _ | s1
    · rw [hop] at hrun
      exact Option.noConfusion hrun
    · rw [hop] at hrun
      simp only [Option.some_bind] at hrun
      have hnotop : op ≠ Op.delOp h := fun hh => hne (hh ▸ List.mem_cons_self _ _)
      have hstep := exec_stable hash s s1 op h dg x hinv hop hnotop hl hd
      exact ih s1 (execOp_inv hash s op s1 hinv hop)
        (fun hm => hne (List.mem_cons_of_mem _ hm)) hrun hstep.1 hstep.2

/-! ### Dedup counting lemmas -/

theorem put_oid (hash : Bytes → Digest) (s : ObjectStore) (x : Bytes)
    (s' : ObjectStore) (oid : Nat) (hinv : StoreInv hash s)
    (hp : ObjectStore.put hash s x = some (s', oid)) : oid = (allocate s).1 := by
  have hrc : ∀ rc b, Assoc.find s.datafiles (hash x) = some (rc, b) → 0 < rc :=
    fun rc b hf => (hinv.rc_eq (hash x) rc b hf).2
  rcases put_spec hash s x hrc with ⟨rc, b, hf, heq⟩ | ⟨hf, heq⟩ <;>
    rw [heq] at hp <;> simp only [Option.some.injEq, Prod.mk.injEq] at hp <;>
    exact hp.2.symm

theorem countContent_zero (hash : Bytes → Digest)
    (dfs : List (Digest × (Int × Bytes))) (a : Bytes)
    (hh : ∀ e ∈ dfs, hash e.2.2 = e.1) (hnk : hash a ∉ Assoc.keys dfs) :
    countContent dfs a = 0 := by
  induction dfs with
  | nil => rfl
  | cons e t ih =>
    have hne : e.2.2 ≠ a := by
      intro hh2
      apply hnk
      have : hash a = e.1 := by rw [← hh e (List.mem_cons_self e t), hh2]
      rw [this]
      exact List.mem_map_of_mem Prod.fst (List.mem_cons_self e t)
    simp only [countContent, hne, if_false, Nat.zero_add]
    refine ih (fun f hf => hh f (List.mem_cons_of_mem e hf)) (fun hm => hnk ?_)
    show hash a ∈ (e :: t).map Prod.fst
    rw [List.map_cons]
    exact List.mem_cons_of_mem e.1 hm

theorem countContent_one (hash : Bytes → Digest)
    (dfs : List (Digest × (Int × Bytes))) (a : Bytes) (rc : Int)
    (hnodup : (Assoc.keys dfs).Nodup) (hh : ∀ e ∈ dfs, hash e.2.2 = e.1)
    (hf : Assoc.find dfs (hash a) = some (rc, a)) :
    countContent dfs a = 1 := by
  induction dfs with
  | nil => simp [Assoc.find] at hf
  | cons e t ih =>
    simp only [Assoc.keys, List.map_cons, List.nodup_cons] at hnodup
    by_cases h1 : e.1 = hash a
    · simp only [Assoc.find, h1, if_pos, if_true] at hf
      have he2 : e.2 = (rc, a) := Option.some.inj hf
      have hea : e.2.2 = a := by rw [he2]
      have hz : countContent t a = 0 :=
        countContent_zero hash t a (fun f hf' => hh f (List.mem_cons_of_mem e hf'))
          (h1 ▸ hnodup.1)
      simp [countContent, hea, hz]
    · have hne : e.2.2 ≠ a := by
        intro hh2
        exact h1 ((hh e (List.mem_cons_self e t)).symm ▸ congrArg hash hh2)
      simp only [Assoc.find, h1, if_false] at hf
      simp only [countContent, hne, if_false, Nat.zero_add]
      exact ih hnodup.2 (fun f hf' => hh f (List.mem_cons_of_mem e hf')) hf

theorem reachable_execOp (hash : Bytes → Digest) (s : ObjectStore) (op : Op)
    (s' : ObjectStore) (hs : Reachable hash s)
    (h : execOp hash s op = some s') : Reachable hash s' := by
  cases op with
  | putOp x =>
    rcases hput : ObjectStore.put hash s x with _ | ⟨s3, oid⟩
    · simp only [execOp, hput, Option.map_none'] at h
      exact Option.noConfusion h
    · simp only [execOp, hput, Option.map_some', Option.some.injEq] at h
      exact h ▸ Reachable.put s x s3 oid hs hput
  | getOp oid =>
    simp only [execOp, Option.some.injEq] at h
    rw [← h, get_fst]
    exact hs
  | delOp oid => exact Reachable.del s oid s' hs h

theorem reachable_execOps (hash : Bytes → Digest) (ops : List Op)
    (s s' : ObjectStore) (hs : Reachable hash s)
    (h : execOps hash ops s = some s') : Reachable hash s' := by
  induction ops generalizing s with
  | nil =>
    simp only [execOps, Option.some.injEq] at h
    exact h ▸ hs
  | cons op ops ih =>
    simp only [execOps] at h
    rcases hop : execOp hash s op with _ | s1
    · rw [hop] at h
      exact Option.noConfusion h
    · rw [hop] at h
      simp only [Option.some_bind] at h
      exact ih s1 (reachable_execOp hash s op s1 hs hop) h

/-! ### Claim theorems (sequential store) -/

/-- C1: for every byte sequence `x` and every reachable store state,
`put x` followed by `get` of the returned handle yields exactly `x` (the
stored payload, without the refcount header), and this continues to hold
through any further sequence of operations that does not delete that
handle. -/
theorem put_get_roundtrip (hash : Bytes → Digest) (hinj : Function.Injective hash)
    (s : ObjectStore) (hs : Reachable hash s) (x : Bytes) (s' : ObjectStore)
    (h : Nat) (hp : ObjectStore.put hash s x = some (s', h)) :
    ObjectStore.get s' h = (s', some (some x)) ∧
    ∀ ops s'', Op.delOp h ∉ ops → execOps hash ops s' = some s'' →
      ObjectStore.get s'' h = (s'', some (some x)) := by
  have hinv := reachable_inv hash s hs
  have hinv' := put_preserves_inv hash s x s' h hinv hp
  obtain ⟨hl, rc, hd⟩ := put_post hash hinj s x s' h hinv hp
  constructor
  · exact get_of_link s' h (hash x) rc x hl hd
  · intro ops s'' hne hrun
    obtain ⟨hl2, rc2, hd2⟩ :=
      execOps_stable hash ops s' s'' h (hash x) x hinv' hne hrun hl ⟨rc, hd⟩
    exact get_of_link s'' h (hash x) rc2 x hl2 hd2

theorem put_get_roundtrip_witness :
    ObjectStore.get ⟨1, [], [(1, [7])], [([7], (1, [7]))]⟩ 1 =
      (⟨1, [], [(1, [7])], [([7], (1, [7]))]⟩, some (some [7])) :=
  (put_get_roundtrip id (fun _ _ hab => hab) initState Reachable.init [7]
    ⟨1, [], [(1, [7])], [([7], (1, [7]))]⟩ 1 (by decide)).1

/-- C2: in every reachable state, a content file's refcount header equals
the number of link records naming its digest and is never negative, and a
content file is present exactly when that number of links is positive. -/
theorem refcount_invariant (hash : Bytes → Digest) (s : ObjectStore)
    (hs : Reachable hash s) :
    (∀ d rc b, Assoc.find s.datafiles d = some (rc, b) →
        rc = (Assoc.countVal s.links d : Int) ∧ 0 ≤ rc) ∧
    (∀ d, (Assoc.find s.datafiles d).isSome ↔ 0 < Assoc.countVal s.links d) := by
  have hinv := reachable_inv hash s hs
  constructor
  · intro d rc b hf
    have h := hinv.rc_eq d rc b hf
    exact ⟨h.1, le_of_lt h.2⟩
  · intro d
    constructor
    · intro hsome
      rcases hf : Assoc.find s.datafiles d with _ | ⟨rc, b⟩
      · rw [hf] at hsome
        exact absurd hsome (by simp)
      · have h := hinv.rc_eq d rc b hf
        have h2 : (0 : Int) < (Assoc.countVal s.links d : Int) := h.1 ▸ h.2
        exact_mod_cast h2
    · intro hpos
      rcases hf : Assoc.find s.datafiles d with _ | ⟨rc, b⟩
      · have := hinv.absent_no_links d hf
        omega
      · rfl

theorem refcount_invariant_witness :
    (1 : Int) = (Assoc.countVal [(1, [3])] ([3] : Digest) : Int) ∧ 0 ≤ (1 : Int) :=
  (refcount_invariant id ⟨1, [], [(1, [3])], [([3], (1, [3]))]⟩
    (Reachable.put initState [3] ⟨1, [], [(1, [3])], [([3], (1, [3]))]⟩ 1
      Reachable.init (by decide))).1 [3] 1 [3] (by decide)

/-- C3: putting the same content twice from a reachable state yields two
distinct handles, exactly one content file for that content remains on
disk, and both handles link to the same digest. -/
theorem dedup_put (hash : Bytes → Digest) (hinj : Function.Injective hash)
    (s : ObjectStore) (hs : Reachable hash s) (a b : Bytes) (hab : a = b)
    (s1 : ObjectStore) (h1 : Nat) (s2 : ObjectStore) (h2 : Nat)
    (hp1 : ObjectStore.put hash s a = some (s1, h1))
    (hp2 : ObjectStore.put hash s1 b = some (s2, h2)) :
    h1 ≠ h2 ∧ countContent s2.datafiles a = 1 ∧
    read_link s2.links h1 = some (hash a) ∧
    read_link s2.links h2 = some (hash a) := by
  subst hab
  have hinv := reachable_inv hash s hs
  have hinv1 := put_preserves_inv hash s a s1 h1 hinv hp1
  have hinv2 := put_preserves_inv hash s1 a s2 h2 hinv1 hp2
  obtain ⟨hl1, rc1, hd1⟩ := put_post hash hinj s a s1 h1 hinv hp1
  obtain ⟨hl2, rc2, hd2⟩ := put_post hash hinj s1 a s2 h2 hinv1 hp2
  have hne : h1 ≠ h2 := by
    intro hh
    have hoid2 := put_oid hash s1 a s2 h2 hinv1 hp2
    have hn := alloc_no_link hash s1 hinv1
    rw [← hoid2, ← hh] at hn
    have hl1' : Assoc.find s1.links h1 = some (hash a) := hl1
    rw [hn] at hl1'
    exact Option.noConfusion hl1'
  have hstep := exec_stable hash s1 s2 (Op.putOp a) h1 (hash a) a hinv1
    (by simp [execOp, hp2]) (fun hc => Op.noConfusion hc) hl1 ⟨rc1, hd1⟩
  exact ⟨hne,
    countContent_one hash s2.datafiles a rc2 hinv2.data_keys_nodup
      hinv2.data_hashes hd2,
    hstep.1, hl2⟩

theorem dedup_put_witness :
    (1 : Nat) ≠ 2 ∧ countContent [([5], (2, [5]))] [5] = 1 ∧
    read_link [(2, [5]), (1, [5])] 1 = some [5] ∧
    read_link [(2, [5]), (1, [5])] 2 = some [5] :=
  dedup_put id (fun _ _ hab => hab) initState Reachable.init [5] [5] rfl
    ⟨1, [], [(1, [5])], [([5], (1, [5]))]⟩ 1
    ⟨2, [], [(2, [5]), (1, [5])], [([5], (2, [5]))]⟩ 2
    (by decide) (by decide)

/-- C5: a handle with no live link record makes `get` return the explicit
absent value (not an exception) and makes `delete` a silent no-op; in
particular the second of two deletes of the same handle is a no-op. -/
theorem absent_handle_behavior (s : ObjectStore) (oid : Nat) :
    (read_link s.links oid = none →
      ObjectStore.get s oid = (s, some none) ∧
      ObjectStore.delete s oid = some s) ∧
    (∀ s', ObjectStore.delete s oid = some s' →
      ObjectStore.delete s' oid = some s') := by
  constructor
  · intro hl
    exact ⟨get_no_link s oid hl, delete_no_link s oid hl⟩
  · intro s' hp
    rcases hl : read_link s.links oid with _ | dg
    · rw [delete_no_link s oid hl] at hp
      simp only [Option.some.injEq] at hp
      rw [← hp]
      exact delete_no_link s oid hl
    · unfold ObjectStore.delete at hp
      rw [hl] at hp
      dsimp only at hp
      rcases hu : update_rc s.datafiles dg (-1) with _ | ⟨dfs, rc⟩
      · rw [hu] at hp
        exact Option.noConfusion hp
      · rw [hu] at hp
        simp only [Option.some.injEq] at hp
        rw [← hp]
        apply delete_no_link
        show Assoc.find (Assoc.erase s.links oid) oid = none
        exact Assoc.find_erase_self _ _

theorem absent_handle_behavior_witness :
    (ObjectStore.get initState 3 = (initState, some none) ∧
      ObjectStore.delete initState 3 = some initState) ∧
    ObjectStore.delete initState 3 = some initState :=
  ⟨(absent_handle_behavior initState 3).1 (by decide),
   (absent_handle_behavior initState 3).2 initState (by decide)⟩

/-- C6 (amended): `put` obtains its handle by popping the LAST element of
the free pool (the earliest-freed handle, since `delete` prepends freed
handles) when the pool is non-empty, and otherwise by incrementing the
monotonic counter; every handle returned is an integer ≥ 1. -/
theorem alloc_policy (hash : Bytes → Digest) (s : ObjectStore)
    (hs : Reachable hash s) (x : Bytes) (s' : ObjectStore) (oid : Nat)
    (hp : ObjectStore.put hash s x = some (s', oid)) :
    1 ≤ oid ∧
    (s.free_objectids = [] → oid = s.objectid + 1) ∧
    (s.free_objectids ≠ [] → s.free_objectids.getLast? = some oid) := by
  have hinv := reachable_inv hash s hs
  have hoid := put_oid hash s x s' oid hinv hp
  obtain ⟨h1, _, _, _⟩ := alloc_fresh hash s hinv
  subst hoid
  refine ⟨h1, ?_, ?_⟩
  · intro hfe
    rw [allocate_nil s hfe]
  · intro hfe
    rcases List.eq_nil_or_concat s.free_objectids with h | ⟨l, a, h⟩
    · exact absurd h hfe
    · rw [List.concat_eq_append] at h
      rw [allocate_concat s l a h, h, List.getLast?_concat]

theorem alloc_policy_witness :
    1 ≤ 2 ∧
    (poolState.free_objectids = [] → 2 = poolState.objectid + 1) ∧
    (poolState.free_objectids ≠ [] →
      poolState.free_objectids.getLast? = some 2) :=
  alloc_policy id poolState
    (reachable_execOps id [Op.putOp [1], Op.putOp [2], Op.delOp 2, Op.delOp 1]
      initState poolState Reachable.init (by decide))
    [3] ⟨2, [1], [(2, [3])], [([3], (1, [3]))]⟩ 2 (by decide)

/-- C6 counterexample: on a reachable store whose free pool is `[1, 2]`
(handle 1 freed most recently, and also the smallest), `put` returns
handle 2 — the pool element popped is neither the smallest nor the most
recently freed one. -/
theorem alloc_order_counterexample :
    execOps id [Op.putOp [1], Op.putOp [2], Op.delOp 2, Op.delOp 1] initState
      = some poolState ∧
    poolState.free_objectids = [1, 2] ∧
    poolState.free_objectids.head? = some 1 ∧
    (∀ o ∈ poolState.free_objectids, 1 ≤ o) ∧
    (ObjectStore.put id poolState [3]).map (fun r => r.2) = some 2 ∧
    (2 : Nat) ≠ 1 := by
  decide

/-- C8: `close` persists the allocator state, and reopening a store on the
same directory restores exactly the same counter value and free-handle
sequence (indeed the whole store state). -/
theorem close_open_roundtrip (s : ObjectStore) :
    (openStore s.links s.datafiles (some (ObjectStore.close s))).objectid
      = s.objectid ∧
    (openStore s.links s.datafiles (some (ObjectStore.close s))).free_objectids
      = s.free_objectids ∧
    openStore s.links s.datafiles (some (ObjectStore.close s)) = s :=
  ⟨rfl, rfl, rfl⟩

/-- C10: `get` never modifies the store state, for any handle, live or
absent. -/
theorem get_frame (s : ObjectStore) (oid : Nat) :
    (ObjectStore.get s oid).1 = s :=
  get_fst s oid

/-- C9: the end-to-end scenario: 100 puts of the same content yield handles
1..100, a 101st distinct put yields 101, gets return the right contents,
get of an unknown handle is absent, delete(100) frees the handle, and a
later put reuses handle 100 for the new content. -/
theorem end_to_end_scenario : scenarioCheck = true := by
  decide

/-- C7 (amended): `put` performs its steps in this order: it computes the
digest, then — under the lock — allocates the handle, then runs the
ensure-the-content-file-exists block (the bulk write of the temporary file
outside the lock and the install decision under it) when the content file
is absent, and finally records the link and increments the refcount.  In
particular the handle is allocated BEFORE the content file is ensured. -/
theorem put_event_order (hash : Bytes → Digest) (s : ObjectStore) (x : Bytes) :
    (putTr hash s x).map Prod.snd = some
      (if (Assoc.find s.datafiles (hash x)).isSome then
        [PutEvent.digestComputed, PutEvent.allocated (allocate s).1,
         PutEvent.linkAdded (allocate s).1, PutEvent.rcIncremented]
      else
        [PutEvent.digestComputed, PutEvent.allocated (allocate s).1,
         PutEvent.tmpWritten, PutEvent.installed,
         PutEvent.linkAdded (allocate s).1, PutEvent.rcIncremented]) := by
  have hd := allocate_snd_datafiles s
  unfold putTr
  simp only [hd]
  rcases hf : Assoc.find s.datafiles (hash x) with _ | ⟨rc, b⟩
  · dsimp only
    rw [update_rc_some _ _ 1 0 x (Assoc.find_set_self _ _ _)]
    norm_num
  · dsimp only
    rw [update_rc_some _ _ 1 rc b hf]
    by_cases hpos : (0 : Int) < rc + 1
    · rw [if_pos hpos]
      rfl
    · rw [if_neg hpos]
      rfl

/-- C7 counterexample: on an empty store the trace of `put` is
digest-computed, allocated, tmp-written, installed, link-added,
rc-incremented — the handle is allocated (index 1) before the ensure-stored
block (indices 2 and 3), so the content file is NOT ensured before a handle
is issued, contrary to the claimed order. -/
theorem put_order_counterexample :
    (putTr id initState [0]).map Prod.snd = some putCexTrace ∧
    putCexTrace.findIdx isAllocated = 1 ∧
    putCexTrace.findIdx isEnsure = 2 ∧
    ¬ putCexTrace.findIdx isEnsure < putCexTrace.findIdx isAllocated := by
  decide

/-! ### Concurrency lemmas -/

theorem oids_append_cons (l r : List ThreadPhase) (p : ThreadPhase) :
    oids (l ++ p :: r) = oids l ++ ((phaseOid p).toList ++ oids r) := by
  unfold oids
  rw [List.filterMap_append]
  congr 1
  rw [List.filterMap_cons]
  cases phaseOid p <;> simp

theorem doneOids_append_cons (l r : List ThreadPhase) (p : ThreadPhase) :
    doneOids (l ++ p :: r) = doneOids l ++ ((doneOid p).toList ++ doneOids r) := by
  unfold doneOids
  rw [List.filterMap_append]
  congr 1
  rw [List.filterMap_cons]
  cases doneOid p <;> simp

theorem doneOid_mem_oids (ts : List ThreadPhase) (a : Nat) (h : a ∈ doneOids ts) :
    a ∈ oids ts := by
  obtain ⟨p, hp, hpa⟩ := List.mem_filterMap.mp h
  refine List.mem_filterMap.mpr ⟨p, hp, ?_⟩
  cases p with
  | start => exact Option.noConfusion hpa
  | pending oid => exact Option.noConfusion hpa
  | done oid => exact hpa

theorem oids_replicate_start (n : Nat) :
    oids (List.replicate n ThreadPhase.start) = [] := by
  induction n with
  | zero => rfl
  | succ n ih =>
    rw [List.replicate_succ]
    show oids (ThreadPhase.start :: List.replicate n ThreadPhase.start) = []
    unfold oids
    rw [List.filterMap_cons_none rfl]
    exact ih

theorem doneOids_replicate_start (n : Nat) :
    doneOids (List.replicate n ThreadPhase.start) = [] := by
  induction n with
  | zero => rfl
  | succ n ih =>
    rw [List.replicate_succ]
    show doneOids (ThreadPhase.start :: List.replicate n ThreadPhase.start) = []
    unfold doneOids
    rw [List.filterMap_cons_none rfl]
    exact ih

theorem cinv_init (hash : Bytes → Digest) (x : Bytes) (n : Nat) :
    CInv hash x (initConfig n) := by
  refine ⟨rfl, ?_, ?_, ?_, ?_, List.nodup_nil, Or.inl ⟨?_, rfl⟩⟩
  · show (0 : Nat) = (oids (List.replicate n ThreadPhase.start)).length
    rw [oids_replicate_start]
    rfl
  · show (oids (List.replicate n ThreadPhase.start)).Nodup
    rw [oids_replicate_start]
    exact List.nodup_nil
  · intro oid ho
    rw [show oids (initConfig n).threads = [] from oids_replicate_start n] at ho
    exact absurd ho (List.not_mem_nil _)
  · intro p hp
    exact absurd hp (List.not_mem_nil _)
  · exact doneOids_replicate_start n

theorem completePut_spec (hash : Bytes → Digest) (x : Bytes) (s : ObjectStore)
    (oid : Nat) (rc : Int) (b : Bytes)
    (hf : Assoc.find s.datafiles (hash x) = some (rc, b)) (hpos : 0 < rc + 1) :
    completePut hash x s oid = some { s with
      links := add_link s.links oid (hash x),
      datafiles := Assoc.set s.datafiles (hash x) (rc + 1, b) } := by
  unfold completePut
  rw [update_rc_some _ _ 1 rc b hf, if_pos hpos]

theorem sysStep_cinv (hash : Bytes → Digest) (x : Bytes) (c c' : SysConfig)
    (hinv : CInv hash x c) (hstep : SysStep hash x c c') : CInv hash x c' := by
  rcases hstep with ⟨s, s', l, r, p, p', h⟩
  have hfe : s.free_objectids = [] := hinv.free_empty
  have hctr : s.objectid = (oids (l ++ p :: r)).length := hinv.counter
  have hnd : (oids (l ++ p :: r)).Nodup := hinv.oids_nodup
  have hrange : ∀ oid ∈ oids (l ++ p :: r), 1 ≤ oid ∧ oid ≤ s.objectid :=
    hinv.oids_range
  have hls : ∀ q ∈ s.links, q.2 = hash x ∧ q.1 ∈ doneOids (l ++ p :: r) :=
    hinv.links_shape
  have hln : (Assoc.keys s.links).Nodup := hinv.links_nodup
  have hds := hinv.data_shape
  cases p with
  | done oid =>
    rw [show threadStep hash x s (ThreadPhase.done oid) = none from rfl] at h
    exact Option.noConfusion h
  | start =>
    have hOld : oids (l ++ ThreadPhase.start :: r) = oids l ++ oids r := by
      rw [oids_append_cons]; rfl
    have hdOld : doneOids (l ++ ThreadPhase.start :: r)
        = doneOids l ++ doneOids r := by
      rw [doneOids_append_cons]; rfl
    have hfreshL : ∀ q ∈ s.links, q.1 ≠ s.objectid + 1 := by
      intro q hq heq
      have h2 := doneOid_mem_oids _ _ (hls q hq).2
      have h3 := (hrange _ h2).2
      omega
    simp only [threadStep] at h
    rw [allocate_nil s hfe] at h
    dsimp only at h
    rcases hds with ⟨hde, hdf⟩ | ⟨hdne, hdf⟩
    · -- content file absent: the thread allocates and suspends
      rw [hdf] at h
      dsimp only [Assoc.find] at h
      simp only [Option.some.injEq, Prod.mk.injEq] at h
      obtain ⟨rfl, rfl⟩ := h
      have hNew : oids (l ++ ThreadPhase.pending (s.objectid + 1) :: r)
          = oids l ++ (s.objectid + 1) :: oids r := by
        rw [oids_append_cons]; rfl
      have hdNew : doneOids (l ++ ThreadPhase.pending (s.objectid + 1) :: r)
          = doneOids l ++ doneOids r := by
        rw [doneOids_append_cons]; rfl
      rw [hOld] at hctr hnd
      have hnotmem : (s.objectid + 1) ∉ oids l ++ oids r := by
        intro hm
        have := (hrange _ (by rw [hOld]; exact hm)).2
        omega
      refine ⟨hfe, ?_, ?_, ?_, ?_, hln, ?_⟩
      · show s.objectid + 1
            = (oids (l ++ ThreadPhase.pending (s.objectid + 1) :: r)).length
        rw [hNew, List.length_append, List.length_cons]
        rw [List.length_append] at hctr
        omega
      · show (oids (l ++ ThreadPhase.pending (s.objectid + 1) :: r)).Nodup
        rw [hNew]
        exact List.nodup_middle.mpr (List.nodup_cons.mpr ⟨hnotmem, hnd⟩)
      · intro o ho
        show 1 ≤ o ∧ o ≤ s.objectid + 1
        rw [hNew] at ho
        rcases List.mem_append.mp ho with hol | hor
        · have := hrange o (by rw [hOld]; exact List.mem_append_left _ hol)
          omega
        · rcases List.mem_cons.mp hor with rfl | hor
          · omega
          · have := hrange o (by rw [hOld]; exact List.mem_append_right _ hor)
            omega
      · intro q hq
        have h2 := hls q hq
        refine ⟨h2.1, ?_⟩
        rw [hdNew]
        rw [hdOld] at h2
        exact h2.2
      · left
        refine ⟨?_, rfl⟩
        rw [hdNew]
        rw [hdOld] at hde
        exact hde
    · -- content file present: fast path, the thread completes at once
      rw [hdOld, List.length_append] at hdf
      rw [hdf] at h
      have hfind : Assoc.find
          [((hash x),
            ((((doneOids l).length + (doneOids r).length : Nat) : Int), x))]
          (hash x)
          = some ((((doneOids l).length + (doneOids r).length : Nat) : Int), x) := by
        simp [Assoc.find]
      rw [hfind] at h
      dsimp only at h
      have hcs := completePut_spec hash x
        ⟨s.objectid + 1, s.free_objectids, s.links,
          [((hash x),
            ((((doneOids l).length + (doneOids r).length : Nat) : Int), x))]⟩
        (s.objectid + 1)
        (((doneOids l).length + (doneOids r).length : Nat) : Int) x
        (by simp [Assoc.find]) (by omega)
      rw [hcs] at h
      have hset : Assoc.set
          [((hash x),
            ((((doneOids l).length + (doneOids r).length : Nat) : Int), x))]
          (hash x)
          ((((doneOids l).length + (doneOids r).length : Nat) : Int) + 1, x)
          = [((hash x),
            ((((doneOids l).length + (doneOids r).length : Nat) : Int) + 1, x))] := by
        simp [Assoc.set, Assoc.erase]
      rw [hset] at h
      simp only [Option.map_some', Option.some.injEq, Prod.mk.injEq] at h
      obtain ⟨rfl, rfl⟩ := h
      have hAL := add_link_fresh s.links (s.objectid + 1) (hash x) hfreshL
      have hNew : oids (l ++ ThreadPhase.done (s.objectid + 1) :: r)
          = oids l ++ (s.objectid + 1) :: oids r := by
        rw [oids_append_cons]; rfl
      have hdNew : doneOids (l ++ ThreadPhase.done (s.objectid + 1) :: r)
          = doneOids l ++ (s.objectid + 1) :: doneOids r := by
        rw [doneOids_append_cons]; rfl
      rw [hOld] at hctr hnd
      have hnotmem : (s.objectid + 1) ∉ oids l ++ oids r := by
        intro hm
        have := (hrange _ (by rw [hOld]; exact hm)).2
        omega
      refine ⟨hfe, ?_, ?_, ?_, ?_, ?_, ?_⟩
      · show s.objectid + 1
            = (oids (l ++ ThreadPhase.done (s.objectid + 1) :: r)).length
        rw [hNew, List.length_append, List.length_cons]
        rw [List.length_append] at hctr
        omega
      · show (oids (l ++ ThreadPhase.done (s.objectid + 1) :: r)).Nodup
        rw [hNew]
        exact List.nodup_middle.mpr (List.nodup_cons.mpr ⟨hnotmem, hnd⟩)
      · intro o ho
        show 1 ≤ o ∧ o ≤ s.objectid + 1
        rw [hNew] at ho
        rcases List.mem_append.mp ho with hol | hor
        · have := hrange o (by rw [hOld]; exact List.mem_append_left _ hol)
          omega
        · rcases List.mem_cons.mp hor with rfl | hor
          · omega
          · have := hrange o (by rw [hOld]; exact List.mem_append_right _ hor)
            omega
      · show ∀ q ∈ add_link s.links (s.objectid + 1) (hash x),
            q.2 = hash x ∧ q.1 ∈ doneOids (l ++ ThreadPhase.done (s.objectid + 1) :: r)
        rw [hAL]
        intro q hq
        rcases List.mem_cons.mp hq with rfl | hq
        · refine ⟨rfl, ?_⟩
          rw [hdNew]
          exact List.mem_append_right _ (List.mem_cons_self _ _)
        · have h2 := hls q hq
          refine ⟨h2.1, ?_⟩
          rw [hdNew]
          rw [hdOld] at h2
          rcases List.mem_append.mp h2.2 with hm | hm
          · exact List.mem_append_left _ hm
          · exact List.mem_append_right _ (List.mem_cons_of_mem _ hm)
      · show (Assoc.keys (add_link s.links (s.objectid + 1) (hash x))).Nodup
        rw [hAL]
        refine List.nodup_cons.mpr ⟨?_, hln⟩
        exact (Assoc.find_eq_none_iff s.links (s.objectid + 1)).mp
          (Assoc.find_eq_none _ _ hfreshL)
      · right
        constructor
        · rw [hdNew]
          intro hnil
          rcases List.append_eq_nil.mp hnil with ⟨_, h2⟩
          exact List.cons_ne_nil _ _ h2
        · show [((hash x),
              ((((doneOids l).length + (doneOids r).length : Nat) : Int) + 1, x))]
            = [((hash x),
              (((doneOids (l ++ ThreadPhase.done (s.objectid + 1) :: r)).length : Int), x))]
          rw [hdNew, List.length_append, List.length_cons]
          push_cast
          ring_nf
  | pending oid =>
    have hOld : oids (l ++ ThreadPhase.pending oid :: r)
        = oids l ++ oid :: oids r := by
      rw [oids_append_cons]; rfl
    have hdOld : doneOids (l ++ ThreadPhase.pending oid :: r)
        = doneOids l ++ doneOids r := by
      rw [doneOids_append_cons]; rfl
    have hNew : oids (l ++ ThreadPhase.done oid :: r)
        = oids l ++ oid :: oids r := by
      rw [oids_append_cons]; rfl
    have hdNew : doneOids (l ++ ThreadPhase.done oid :: r)
        = doneOids l ++ oid :: doneOids r := by
      rw [doneOids_append_cons]; rfl
    have hoidrange : 1 ≤ oid ∧ oid ≤ s.objectid := by
      refine hrange oid ?_
      rw [hOld]
      exact List.mem_append_right _ (List.mem_cons_self _ _)
    have hoidnotdone : oid ∉ doneOids (l ++ ThreadPhase.pending oid :: r) := by
      intro hm
      rw [hdOld] at hm
      have hnd2 := hnd
      rw [hOld] at hnd2
      have hnotm := (List.nodup_cons.mp (List.nodup_middle.mp hnd2)).1
      rcases List.mem_append.mp hm with hm | hm
      · exact hnotm (List.mem_append_left _ (doneOid_mem_oids l oid hm))
      · exact hnotm (List.mem_append_right _ (doneOid_mem_oids r oid hm))
    have hfreshL : ∀ q ∈ s.links, q.1 ≠ oid := by
      intro q hq heq
      exact hoidnotdone (heq ▸ (hls q hq).2)
    have hAL := add_link_fresh s.links oid (hash x) hfreshL
    simp only [threadStep] at h
    rcases hds with ⟨hde, hdf⟩ | ⟨hdne, hdf⟩
    · -- no content file yet: this thread installs its temporary file
      rw [hdf] at h
      dsimp only [Assoc.find, Assoc.set, Assoc.erase] at h
      have hcs := completePut_spec hash x
        ⟨s.objectid, s.free_objectids, s.links, [((hash x), ((0 : Int), x))]⟩
        oid (0 : Int) x (by simp [Assoc.find]) (by norm_num)
      rw [hcs] at h
      have hset : Assoc.set [((hash x), ((0 : Int), x))] (hash x) ((0 : Int) + 1, x)
          = [((hash x), ((0 : Int) + 1, x))] := by
        simp [Assoc.set, Assoc.erase]
      rw [hset] at h
      simp only [Option.map_some', Option.some.injEq, Prod.mk.injEq] at h
      obtain ⟨rfl, rfl⟩ := h
      obtain ⟨hdl, hdr⟩ := List.append_eq_nil.mp (hdOld ▸ hde)
      refine ⟨hfe, ?_, ?_, ?_, ?_, ?_, ?_⟩
      · show s.objectid = (oids (l ++ ThreadPhase.done oid :: r)).length
        rw [hNew]
        rw [hOld] at hctr
        exact hctr
      · show (oids (l ++ ThreadPhase.done oid :: r)).Nodup
        rw [hNew]
        rw [hOld] at hnd
        exact hnd
      · intro o ho
        show 1 ≤ o ∧ o ≤ s.objectid
        rw [hNew] at ho
        refine hrange o ?_
        rw [hOld]
        exact ho
      · show ∀ q ∈ add_link s.links oid (hash x),
            q.2 = hash x ∧ q.1 ∈ doneOids (l ++ ThreadPhase.done oid :: r)
        rw [hAL]
        intro q hq
        rcases List.mem_cons.mp hq with rfl | hq
        · refine ⟨rfl, ?_⟩
          rw [hdNew]
          exact List.mem_append_right _ (List.mem_cons_self _ _)
        · have h2 := hls q hq
          refine ⟨h2.1, ?_⟩
          rw [hdNew]
          rw [hdOld] at h2
          rcases List.mem_append.mp h2.2 with hm | hm
          · exact List.mem_append_left _ hm
          · exact List.mem_append_right _ (List.mem_cons_of_mem _ hm)
      · show (Assoc.keys (add_link s.links oid (hash x))).Nodup
        rw [hAL]
        refine List.nodup_cons.mpr ⟨?_, hln⟩
        exact (Assoc.find_eq_none_iff s.links oid).mp
          (Assoc.find_eq_none _ _ hfreshL)
      · right
        constructor
        · rw [hdNew]
          intro hnil
          rcases List.append_eq_nil.mp hnil with ⟨_, h2⟩
          exact List.cons_ne_nil _ _ h2
        · show [((hash x), ((0 : Int) + 1, x))]
            = [((hash x),
              (((doneOids (l ++ ThreadPhase.done oid :: r)).length : Int), x))]
          rw [hdNew, hdl, hdr]
          norm_num
    · -- content file already installed by someone else: discard and complete
      rw [hdOld, List.length_append] at hdf
      rw [hdf] at h
      have hfind : Assoc.find
          [((hash x),
            ((((doneOids l).length + (doneOids r).length : Nat) : Int), x))]
          (hash x)
          = some ((((doneOids l).length + (doneOids r).length : Nat) : Int), x) := by
        simp [Assoc.find]
      rw [hfind] at h
      dsimp only at h
      have hcs := completePut_spec hash x
        ⟨s.objectid, s.free_objectids, s.links,
          [((hash x),
            ((((doneOids l).length + (doneOids r).length : Nat) : Int), x))]⟩
        oid
        (((doneOids l).length + (doneOids r).length : Nat) : Int) x
        (by simp [Assoc.find]) (by omega)
      rw [hcs] at h
      have hset : Assoc.set
          [((hash x),
            ((((doneOids l).length + (doneOids r).length : Nat) : Int), x))]
          (hash x)
          ((((doneOids l).length + (doneOids r).length : Nat) : Int) + 1, x)
          = [((hash x),
            ((((doneOids l).length + (doneOids r).length : Nat) : Int) + 1, x))] := by
        simp [Assoc.set, Assoc.erase]
      rw [hset] at h
      simp only [Option.map_some', Option.some.injEq, Prod.mk.injEq] at h
      obtain ⟨rfl, rfl⟩ := h
      refine ⟨hfe, ?_, ?_, ?_, ?_, ?_, ?_⟩
      · show s.objectid = (oids (l ++ ThreadPhase.done oid :: r)).length
        rw [hNew]
        rw [hOld] at hctr
        exact hctr
      · show (oids (l ++ ThreadPhase.done oid :: r)).Nodup
        rw [hNew]
        rw [hOld] at hnd
        exact hnd
      · intro o ho
        show 1 ≤ o ∧ o ≤ s.objectid
        rw [hNew] at ho
        refine hrange o ?_
        rw [hOld]
        exact ho
      · show ∀ q ∈ add_link s.links oid (hash x),
            q.2 = hash x ∧ q.1 ∈ doneOids (l ++ ThreadPhase.done oid :: r)
        rw [hAL]
        intro q hq
        rcases List.mem_cons.mp hq with rfl | hq
        · refine ⟨rfl, ?_⟩
          rw [hdNew]
          exact List.mem_append_right _ (List.mem_cons_self _ _)
        · have h2 := hls q hq
          refine ⟨h2.1, ?_⟩
          rw [hdNew]
          rw [hdOld] at h2
          rcases List.mem_append.mp h2.2 with hm | hm
          · exact List.mem_append_left _ hm
          · exact List.mem_append_right _ (List.mem_cons_of_mem _ hm)
      · show (Assoc.keys (add_link s.links oid (hash x))).Nodup
        rw [hAL]
        refine List.nodup_cons.mpr ⟨?_, hln⟩
        exact (Assoc.find_eq_none_iff s.links oid).mp
          (Assoc.find_eq_none _ _ hfreshL)
      · right
        constructor
        · rw [hdNew]
          intro hnil
          rcases List.append_eq_nil.mp hnil with ⟨_, h2⟩
          exact List.cons_ne_nil _ _ h2
        · show [((hash x),
              ((((doneOids l).length + (doneOids r).length : Nat) : Int) + 1, x))]
            = [((hash x),
              (((doneOids (l ++ ThreadPhase.done oid :: r)).length : Int), x))]
          rw [hdNew, List.length_append, List.length_cons]
          push_cast
          ring_nf

theorem run_cinv (hash : Bytes → Digest) (x : Bytes) (n : Nat) (c : SysConfig)
    (hrun : Relation.ReflTransGen (SysStep hash x) (initConfig n) c) :
    CInv hash x c := by
  induction hrun with
  | refl => exact cinv_init hash x n
  | tail _ hbc ih => exact sysStep_cinv hash x _ _ ih hbc

theorem sysStep_length (hash : Bytes → Digest) (x : Bytes) (c c' : SysConfig)
    (h : SysStep hash x c c') : c'.threads.length = c.threads.length := by
  rcases h with ⟨s, s', l, r, p, p', h⟩
  simp

theorem run_length (hash : Bytes → Digest) (x : Bytes) (n : Nat) (c : SysConfig)
    (hrun : Relation.ReflTransGen (SysStep hash x) (initConfig n) c) :
    c.threads.length = n := by
  induction hrun with
  | refl => simp [initConfig]
  | tail _ hbc ih => rw [sysStep_length hash x _ _ hbc]; exact ih

theorem doneOids_eq_oids (ts : List ThreadPhase)
    (h : ∀ p ∈ ts, isDone p = true) : doneOids ts = oids ts := by
  induction ts with
  | nil => rfl
  | cons p ts ih =>
    have hp := h p (List.mem_cons_self p ts)
    cases p with
    | start => exact Bool.noConfusion hp
    | pending oid => exact Bool.noConfusion hp
    | done oid =>
      show oid :: doneOids ts = oid :: oids ts
      rw [ih (fun q hq => h q (List.mem_cons_of_mem _ hq))]

theorem doneOids_length_all (ts : List ThreadPhase)
    (h : ∀ p ∈ ts, isDone p = true) : (doneOids ts).length = ts.length := by
  induction ts with
  | nil => rfl
  | cons p ts ih =>
    have hp := h p (List.mem_cons_self p ts)
    cases p with
    | start => exact Bool.noConfusion hp
    | pending oid => exact Bool.noConfusion hp
    | done oid =>
      show (oid :: doneOids ts).length = ts.length + 1
      rw [List.length_cons, ih (fun q hq => h q (List.mem_cons_of_mem _ hq))]

/-- A thread that has not finished always has an enabled critical section:
no interleaving gets stuck or fails. -/
theorem threadStep_progress (hash : Bytes → Digest) (x : Bytes) (s : ObjectStore)
    (p : ThreadPhase) (hp : isDone p = false) :
    ∃ s' p', threadStep hash x s p = some (s', p') := by
  cases p with
  | done oid => exact Bool.noConfusion hp
  | start =>
    simp only [threadStep]
    rcases hf : Assoc.find (allocate s).2.datafiles (hash x) with _ | ⟨rc, b⟩
    · exact ⟨_, _, rfl⟩
    · dsimp only
      simp only [completePut]
      rw [update_rc_some _ _ 1 rc b hf]
      by_cases hpos : (0 : Int) < rc + 1
      · rw [if_pos hpos]
        exact ⟨_, _, rfl⟩
      · rw [if_neg hpos]
        exact ⟨_, _, rfl⟩
  | pending oid =>
    simp only [threadStep]
    rcases hf : Assoc.find s.datafiles (hash x) with _ | ⟨rc, b⟩
    · dsimp only
      simp only [completePut]
      rw [update_rc_some _ _ 1 0 x (Assoc.find_set_self _ _ _),
        if_pos (by norm_num : (0 : Int) < 0 + 1)]
      exact ⟨_, _, rfl⟩
    · dsimp only
      simp only [completePut]
      rw [update_rc_some _ _ 1 rc b hf]
      by_cases hpos : (0 : Int) < rc + 1
      · rw [if_pos hpos]
        exact ⟨_, _, rfl⟩
      · rw [if_neg hpos]
        exact ⟨_, _, rfl⟩

/-- C4: in the interleaving model of N threads concurrently calling
`put x` on one shared, initially empty store, no interleaving gets stuck
(every call succeeds), and when all threads have completed they hold
pairwise-distinct valid handles (≥ 1) and exactly one content file exists,
for `hash x`, with reference count N. -/
theorem concurrent_put_dedup (hash : Bytes → Digest) (x : Bytes) (n : Nat)
    (hn : 0 < n) (c : SysConfig)
    (hrun : Relation.ReflTransGen (SysStep hash x) (initConfig n) c) :
    ((∃ p ∈ c.threads, isDone p = false) → ∃ c', SysStep hash x c c') ∧
    ((∀ p ∈ c.threads, isDone p = true) →
      (doneOids c.threads).Nodup ∧ (doneOids c.threads).length = n ∧
      (∀ oid ∈ doneOids c.threads, 1 ≤ oid) ∧
      c.store.datafiles = [(hash x, ((n : Int), x))]) := by
  have hcinv := run_cinv hash x n c hrun
  have hlen := run_length hash x n c hrun
  constructor
  · rintro ⟨p, hp, hpd⟩
    obtain ⟨l, r, hdec⟩ := List.append_of_mem hp
    obtain ⟨s2, p2, hstep⟩ := threadStep_progress hash x c.store p hpd
    refine ⟨⟨s2, l ++ p2 :: r⟩, ?_⟩
    have hc : c = ⟨c.store, l ++ p :: r⟩ := by
      rw [← hdec]
    rw [hc]
    exact SysStep.step c.store s2 l r p p2 hstep
  · intro hall
    have heq := doneOids_eq_oids c.threads hall
    have hdl := doneOids_length_all c.threads hall
    have hnd : (doneOids c.threads).Nodup := by
      rw [heq]; exact hcinv.oids_nodup
    refine ⟨hnd, by omega, ?_, ?_⟩
    · intro oid ho
      rw [heq] at ho
      exact (hcinv.oids_range oid ho).1
    · rcases hcinv.data_shape with ⟨hde, hdf⟩ | ⟨hdne, hdf⟩
      · exfalso
        have h0 : (doneOids c.threads).length = 0 := by rw [hde]; rfl
        omega
      · rw [hdf]
        have hn2 : (doneOids c.threads).length = n := by omega
        rw [hn2]

theorem concurrent_put_dedup_witness :
    (doneOids [ThreadPhase.done 1]).Nodup ∧
    (doneOids [ThreadPhase.done 1]).length = 1 ∧
    (∀ oid ∈ doneOids [ThreadPhase.done 1], 1 ≤ oid) ∧
    (SysConfig.mk ⟨1, [], [(1, [9])], [([9], (1, [9]))]⟩
      [ThreadPhase.done 1]).store.datafiles = [([9], ((1 : Int), [9]))] := by
  have hrun : Relation.ReflTransGen (SysStep id [9]) (initConfig 1)
      ⟨⟨1, [], [(1, [9])], [([9], (1, [9]))]⟩, [ThreadPhase.done 1]⟩ :=
    Relation.ReflTransGen.tail
      (Relation.ReflTransGen.tail Relation.ReflTransGen.refl
        (SysStep.step initState ⟨1, [], [], []⟩ [] [] ThreadPhase.start
          (ThreadPhase.pending 1) (by decide)))
      (SysStep.step ⟨1, [], [], []⟩ ⟨1, [], [(1, [9])], [([9], (1, [9]))]⟩ [] []
        (ThreadPhase.pending 1) (ThreadPhase.done 1) (by decide))
  exact (concurrent_put_dedup id [9] 1 (by decide)
    ⟨⟨1, [], [(1, [9])], [([9], (1, [9]))]⟩, [ThreadPhase.done 1]⟩ hrun).2
    (by decide)
